import Mathlib

/-!
Verification development for the markup rewriting core of the
`anki-formater` repository.  The function under study is `transform` in
`src/main.go` (lines 254-357): a pipeline of regular-expression driven
passes over an HTML-like markup fragment that produces a rewritten fragment
together with an extracted translation string.

Strings are modelled as `List Char` (Go's operations on UTF-8 strings cut
only at pattern occurrences, so a rune-level model produces the same
strings).  Each Go regular expression is embedded as a hand written
leftmost-first matcher that follows RE2's leftmost-first (backtracking
priority) semantics for the concrete pattern, and every `ReplaceAll…` call
is embedded as a fuelled left-to-right scan (`replA`) whose fuel — the
length of the input — is provably sufficient because every matcher consumes
at least one character.
-/

namespace AnkiFmt

/-- Lower-case an ASCII letter; all other characters are unchanged.  Used to
implement the case-insensitive `(?i)` matching of the Go regular
expressions. -/
def lcase (c : Char) : Char :=
  if 'A' ≤ c ∧ c ≤ 'Z' then Char.ofNat (c.toNat + 32) else c

/-- Whitespace class of RE2's `\s`, namely `[\t\n\f\r ]`. -/
def isReSpace (c : Char) : Bool :=
  c = '\t' || c = '\n' || c = '\x0c' || c = '\r' || c = ' '

/-- Whitespace recognised by Go's `strings.TrimSpace` (`unicode.IsSpace`),
restricted to the Latin-1 range. -/
def isGoSpace (c : Char) : Bool :=
  c = '\t' || c = '\n' || c = '\x0b' || c = '\x0c' || c = '\r' || c = ' ' ||
  c = '\x85' || c = '\xa0'

/-- Word character for RE2's `\b` word boundary: `[0-9A-Za-z_]`. -/
def isWordChar (c : Char) : Bool :=
  ('0' ≤ c && c ≤ '9') || ('a' ≤ c && c ≤ 'z') || ('A' ≤ c && c ≤ 'Z') || c = '_'

/-- Trim characters satisfying `p` from both ends of a list. -/
def trimBy (p : Char → Bool) (l : List Char) : List Char :=
  ((l.dropWhile p).reverse.dropWhile p).reverse

/-- Go's `strings.TrimSpace`. -/
def trimSpace (l : List Char) : List Char := trimBy isGoSpace l

/-- Go's `strings.Trim(sound, "\" ")`: trim surrounding double quotes and
space characters (line 338 of `src/main.go`). -/
def trimQuoteSpace (l : List Char) : List Char :=
  trimBy (fun c => c = '"' || c = ' ') l

/-- Consume the literal `pat` case-insensitively at the head of the list,
returning the remainder. -/
def dropPfxCI : List Char → List Char → Option (List Char)
  | [], l => some l
  | _ :: _, [] => none
  | p :: ps, c :: cs => if lcase c = lcase p then dropPfxCI ps cs else none

/-- Consume the literal `pat` (case-sensitively) at the head of the list,
returning the remainder. -/
def dropPfxCS : List Char → List Char → Option (List Char)
  | [], l => some l
  | _ :: _, [] => none
  | p :: ps, c :: cs => if c = p then dropPfxCS ps cs else none

/-- Split at the first occurrence of the character `ch`, returning the part
strictly before it and the part strictly after it.  This is the forced
extent of a greedy `[^ch]*` followed by the literal `ch`. -/
def splitUntilChar (ch : Char) : List Char → Option (List Char × List Char)
  | [] => none
  | c :: tl =>
    if c = ch then some ([], tl)
    else (splitUntilChar ch tl).map fun p => (c :: p.1, p.2)

/-- Split at the first case-insensitive occurrence of the literal `pat`,
returning the part before it and the part after it.  This is the forced
extent of a lazy `(?i)(.*?)pat`. -/
def splitUntilLitCI (pat : List Char) : List Char → Option (List Char × List Char)
  | [] =>
    match dropPfxCI pat [] with
    | some r => some ([], r)
    | none => none
  | c :: tl =>
    match dropPfxCI pat (c :: tl) with
    | some r => some ([], r)
    | none => (splitUntilLitCI pat tl).map fun p => (c :: p.1, p.2)

/-- Split at the first case-sensitive occurrence of the literal `pat`. -/
def splitUntilLitCS (pat : List Char) : List Char → Option (List Char × List Char)
  | [] =>
    match dropPfxCS pat [] with
    | some r => some ([], r)
    | none => none
  | c :: tl =>
    match dropPfxCS pat (c :: tl) with
    | some r => some ([], r)
    | none => (splitUntilLitCS pat tl).map fun p => (c :: p.1, p.2)

/-- Go's `strings.Index`: index of the first occurrence of `pat`. -/
def indexOfLit (pat : List Char) (l : List Char) : Option Nat :=
  (splitUntilLitCS pat l).map fun p => p.1.length

/-- Go's `strings.HasPrefix`. -/
def hasPfx (pat l : List Char) : Bool := (dropPfxCS pat l).isSome

/-- Check whether the token `tok` occurs in `l` case-insensitively with a
non-word character (or the edge of `l`) on its left, and — when `both` is
set — also a non-word character (or the edge) on its right.  This decides
`\btok` resp. `\btok\b` inside a quoted class value, whose surrounding
context in the subject string is always a non-word `"` character, so the
edges of `l` count as boundaries. -/
def hasTok (tok : List Char) (both : Bool) : Option Char → List Char → Bool
  | _, [] => false
  | prev, c :: tl =>
    ((match prev with
       | none => true
       | some p => ! isWordChar p) &&
     (match dropPfxCI tok (c :: tl) with
      | some r =>
        if both then
          match r with
          | [] => true
          | d :: _ => ! isWordChar d
        else true
      | none => false)) ||
    hasTok tok both (some c) tl

/-- Scan for the first position at which the matcher `m` succeeds, returning
the unmatched part before that position together with the matcher's answer.
This is the leftmost rule of Go's `FindStringSubmatch` / `ReplaceAll…`. -/
def findSplit {α : Type} (m : List Char → Option α) : List Char → Option (List Char × α)
  | [] => none
  | c :: tl =>
    match m (c :: tl) with
    | some a => some ([], a)
    | none => (findSplit m tl).map fun p => (c :: p.1, p.2)

/-- First match of `m` in the list (the matcher's answer only). -/
def findFirst {α : Type} (m : List Char → Option α) (l : List Char) : Option α :=
  (findSplit m l).map Prod.snd

/-- One fuelled left-to-right replacement pass, the embedding of Go's
`ReplaceAllString` / `ReplaceAllStringFunc`: at each position try the
matcher `m`; on a match `(r, rest)` emit the replacement `r` and continue
after the match with `rest`, otherwise keep the character and move on.
Matches are non-overlapping and replacements are not rescanned in the same
pass, exactly as in Go.  The fuel is always instantiated with the length of
the input (`replAll`), which is provably sufficient because every matcher
consumes at least one character. -/
def replA (m : List Char → Option (List Char × List Char)) : Nat → List Char → List Char
  | 0, l => l
  | _ + 1, [] => []
  | f + 1, c :: tl =>
    match m (c :: tl) with
    | some (r, rest) => r ++ replA m f rest
    | none => c :: replA m f tl

/-- Replacement pass with its canonical fuel. -/
def replAll (m : List Char → Option (List Char × List Char)) (l : List Char) : List Char :=
  replA m l.length l

/-! ### HTML text utilities (`html.UnescapeString`, `html.EscapeString`,
`stripTags`) -/

/-- Decode one character reference body following a `&`: the recognised
entity names with their decoded characters and remainders. -/
def unescEnt : List Char → Option (Char × List Char)
  | 'l' :: 't' :: ';' :: r => some ('<', r)
  | 'g' :: 't' :: ';' :: r => some ('>', r)
  | 'a' :: 'm' :: 'p' :: ';' :: r => some ('&', r)
  | 'q' :: 'u' :: 'o' :: 't' :: ';' :: r => some ('"', r)
  | 'a' :: 'p' :: 'o' :: 's' :: ';' :: r => some ('\'', r)
  | '#' :: '3' :: '4' :: ';' :: r => some ('"', r)
  | '#' :: '3' :: '9' :: ';' :: r => some ('\'', r)
  | _ => none

/-- Fuelled single left-to-right entity-decoding pass: a `&` followed by a
recognised reference is decoded (and the decoded output not rescanned, as
in Go); any other character is kept. -/
def unescA : Nat → List Char → List Char
  | 0, l => l
  | _ + 1, [] => []
  | f + 1, c :: tl =>
    if c = '&' then
      match unescEnt tl with
      | some (d, r) => d :: unescA f r
      | none => c :: unescA f tl
    else c :: unescA f tl

/-- Modelled from Go's standard library `html.UnescapeString`, restricted to
the basic named and numeric character references (`&lt;` `&gt;` `&amp;`
`&quot;` `&apos;` `&#34;` `&#39;`); the full Go entity table is not part of
this repository and only this decoding step's existence matters for the
claims.  The fuel (the input length) is always sufficient since decoding a
reference consumes at least four characters. -/
def unescapeString (l : List Char) : List Char := unescA l.length l

/-- Go's `html.EscapeString` replacement table for one character:
`&`→`&amp;`, `'`→`&#39;`, `<`→`&lt;`, `>`→`&gt;`, `"`→`&#34;`. -/
def escapeChar (c : Char) : List Char :=
  if c = '&' then "&amp;".toList
  else if c = '\'' then "&#39;".toList
  else if c = '<' then "&lt;".toList
  else if c = '>' then "&gt;".toList
  else if c = '"' then "&#34;".toList
  else [c]

/-- Go's `html.EscapeString`. -/
def escapeString (l : List Char) : List Char := (l.map escapeChar).flatten

/-- Character scan of `stripTags` (lines 360-376 of `src/main.go`): drop
everything from a `<` up to the next `>`, tracking the `inTag` flag; the
angle brackets themselves are never emitted. -/
def stripTagsScan : Bool → List Char → List Char
  | _, [] => []
  | inTag, c :: tl =>
    if c = '<' then stripTagsScan true tl
    else if c = '>' then stripTagsScan false tl
    else if inTag then stripTagsScan inTag tl
    else c :: stripTagsScan inTag tl

/-- The `stripTags` utility of `src/main.go`: remove tags, decode entities,
trim surrounding whitespace. -/
def stripTags (l : List Char) : List Char :=
  trimSpace (unescapeString (stripTagsScan false l))

/-! ### Matchers, one per compiled regular expression of `src/main.go`.

Each `match…At` function decides whether the regular expression matches at
the head of the list, following RE2's leftmost-first (lazy shortest /
greedy longest, priority ordered) semantics for the concrete pattern, and
returns the captured groups together with the remainder after the match. -/

/-- Matcher for `reStyleBlock = (?is)<style.*?>.*?</style>` at the head:
the literal `<style`, a lazy run to the first `>`, a lazy run to the first
`</style>`.  Returns the remainder after the match (the whole match is
dropped on replacement). -/
def matchStyleAt (l : List Char) : Option (List Char) := do
  let a ← dropPfxCI "<style".toList l
  let (_, b) ← splitUntilChar '>' a
  let (_, rest) ← splitUntilLitCI "</style>".toList b
  pure rest

/-- Matcher for
`reTransDiv = (?is)<div\s+class="dc-line\s+dc-translation[^"]*"\s*>(.*?)</div>`
at the head.  Every quantifier extent of this pattern is forced: `\s+`
cannot trade characters with the following literal, `[^"]*` runs to the
first `"`, `\s*` runs to the `>`, and the lazy group ends at the first
`</div>`.  Returns (captured inner content, remainder). -/
def matchTransDivAt (l : List Char) : Option (List Char × List Char) := do
  let a ← dropPfxCI "<div".toList l
  match a with
  | c :: _ =>
    if isReSpace c then do
      let b := a.dropWhile isReSpace
      let c1 ← dropPfxCI "class=\"".toList b
      let c2 ← dropPfxCI "dc-line".toList c1
      match c2 with
      | d :: _ =>
        if isReSpace d then do
          let e := c2.dropWhile isReSpace
          let f ← dropPfxCI "dc-translation".toList e
          let (_, g) ← splitUntilChar '"' f
          match g.dropWhile isReSpace with
          | '>' :: g2 => do
            let (inner, rest) ← splitUntilLitCI "</div>".toList g2
            pure (inner, rest)
          | _ => none
        else none
      | [] => none
    else none
  | [] => none

/-- Collect, left to right, the suffixes following each case-insensitive
occurrence of `class="` that is reachable from the start without crossing a
`>` (the gap being matched by `[^>]*` / `[^>]+`), paired with the length of
that gap.  Candidates are tried in reverse (longest gap first) to follow
the greedy priority of `[^>]*class="`. -/
def classCands : Nat → List Char → List (Nat × List Char)
  | _, [] => []
  | i, c :: tl =>
    if c = '>' then []
    else
      (match dropPfxCI "class=\"".toList (c :: tl) with
       | some r => [(i, r)]
       | none => []) ++ classCands (i + 1) tl

/-- Shared continuation of the three `<tag …class="…tok…"…>(.*?)CLOSE`
matchers: given the candidate suffixes after `class="` (already priority
ordered), take the quoted value up to the first `"`, require the boundary
token, take `[^>]*` up to the first `>`, then find the inner content via
`close`.  A candidate whose continuation fails backtracks to the next
candidate, as a backtracking search would. -/
def tryClassCands (tok : List Char) (both : Bool)
    (close : List Char → Option (List Char × List Char)) :
    List (Nat × List Char) → Option (List Char × List Char)
  | [] => none
  | (_, after) :: more =>
    match splitUntilChar '"' after with
    | none => tryClassCands tok both close more
    | some (q, afterQ) =>
      if hasTok tok both none q then
        match splitUntilChar '>' afterQ with
        | none => tryClassCands tok both close more
        | some (_, afterGt) =>
          match close afterGt with
          | some (inner, rest) => some (inner, rest)
          | none => tryClassCands tok both close more
      else tryClassCands tok both close more

/-- Closing pattern `</[^>]+>` of `reAnyTranslation`: the first position
with `</`, then a nonempty run to the first `>`.  Returns (content before
it, remainder after it). -/
def findCloseAny : List Char → Option (List Char × List Char)
  | [] => none
  | c :: tl =>
    match
      (match c, tl with
       | '<', '/' :: t2 =>
         match splitUntilChar '>' t2 with
         | some (name, rest) => if name = [] then none else some (([] : List Char), rest)
         | none => none
       | _, _ => none) with
    | some (_, rest) => some ([], rest)
    | none => (findCloseAny tl).map fun p => (c :: p.1, p.2)

/-- Matcher for
`reAnyTranslation = (?is)<[^>]+class="[^"]*\bdc-translation\b[^"]*"[^>]*>(.*?)</[^>]+>`
at the head.  The `[^>]+` before `class="` is greedy, so the rightmost
reachable `class="` candidate is tried first; the quoted value must contain
`dc-translation` with word boundaries; `[^>]*` runs to the first `>` and
the lazy group ends at the first `</`-`[^>]+`-`>` closing. -/
def matchAnyTransAt (l : List Char) : Option (List Char × List Char) :=
  match l with
  | '<' :: l1 =>
    tryClassCands "dc-translation".toList true findCloseAny
      (((classCands 0 l1).filter fun p => decide (1 ≤ p.1)).reverse)
  | _ => none

/-- Matcher for the two unwrap patterns
`(?is)<span[^>]*class="[^"]*\btok\b[^"]*"[^>]*>(.*?)</span>` with
`tok ∈ {dc-down, dc-gap}` at the head; the gap before `class="` may be
empty (`[^>]*`), and the lazy group ends at the first `</span>`. -/
def matchSpanTokAt (tok : List Char) (l : List Char) : Option (List Char × List Char) :=
  match dropPfxCI "<span".toList l with
  | some l1 =>
    tryClassCands tok true (fun r => splitUntilLitCI "</span>".toList r)
      ((classCands 0 l1).reverse)
  | none => none

/-- Matcher for `reCardDiv = (?is)<div\s+class="([^"]*\bdc-card[^"]*)"(.*?)>`
at the head.  The captured class value is the whole quoted run to the first
`"` (both `[^"]*` are flexible, so the match exists exactly when the value
contains a left-boundary `dc-card`); the lazy second group runs to the
first `>`. -/
def matchCardAt (l : List Char) : Option (List Char × List Char) := do
  let a ← dropPfxCI "<div".toList l
  match a with
  | c :: _ =>
    if isReSpace c then do
      let b := a.dropWhile isReSpace
      let c1 ← dropPfxCI "class=\"".toList b
      let (q, afterQ) ← splitUntilChar '"' c1
      if hasTok "dc-card".toList false none q then do
        let (_, rest) ← splitUntilChar '>' afterQ
        pure (q, rest)
      else none
    else none
  | [] => none

/-- Matcher for
`reImage = (?is)<div\s+class="([^"]*\bdc-image[^"]*)"\s+style="([^"]*?)"\s*></div>`
at the head.  Returns (class value, style value, remainder). -/
def matchImageAt (l : List Char) : Option (List Char × List Char × List Char) := do
  let a ← dropPfxCI "<div".toList l
  match a with
  | c :: _ =>
    if isReSpace c then do
      let b := a.dropWhile isReSpace
      let c1 ← dropPfxCI "class=\"".toList b
      let (q1, afterQ1) ← splitUntilChar '"' c1
      if hasTok "dc-image".toList false none q1 then
        match afterQ1 with
        | d :: _ =>
          if isReSpace d then do
            let e := afterQ1.dropWhile isReSpace
            let f ← dropPfxCI "style=\"".toList e
            let (q2, afterQ2) ← splitUntilChar '"' f
            match afterQ2.dropWhile isReSpace with
            | '>' :: g => do
              let rest ← dropPfxCI "</div>".toList g
              pure (q1, q2, rest)
            | _ => none
          else none
        | [] => none
      else none
    else none
  | [] => none

/-- Matcher for `reBgImage = (?is)background-image\s*:\s*url\(([^)]+)\)` at
the head, returning the length of the whole match (`m[0]` is the original
slice of that length). -/
def matchBgAt (l : List Char) : Option Nat := do
  let a ← dropPfxCI "background-image".toList l
  let b := a.dropWhile isReSpace
  match b with
  | ':' :: b1 =>
    let c := b1.dropWhile isReSpace
    match dropPfxCI "url(".toList c with
    | some d => do
      let (inside, rest) ← splitUntilChar ')' d
      if inside = [] then none else pure (l.length - rest.length)
    | none => none
  | _ => none

/-- First `reBgImage` match anywhere in the style value, returning the
matched slice `m[0]` verbatim. -/
def findBgImage : List Char → Option (List Char)
  | [] => none
  | c :: tl =>
    match matchBgAt (c :: tl) with
    | some n => some ((c :: tl).take n)
    | none => findBgImage tl

/-- Body scan of `matchClozeAt`, operating after the `{{cN::` head: grow the
lazy FRONT group one character at a time; at each split point first try the
optional `(?:::(.*?))?` present (a literal `::`, then the lazy BACK group up
to the first `}}`), then the closing `}}` directly (BACK unmatched, which Go
reports as the empty string). -/
def clozeGo : List Char → List Char → Option (List Char × List Char × List Char)
  | _, [] => none
  | acc, c :: tl =>
    match c, tl with
    | ':', ':' :: r =>
      (match splitUntilLitCS "\x7d\x7d".toList r with
       | some (back, rest) => some (acc.reverse, back, rest)
       | none => clozeGo (c :: acc) tl)
    | '}', '}' :: r => some (acc.reverse, [], r)
    | _, _ => clozeGo (c :: acc) tl

/-- Matcher for `reCloze = (?is)\{\{c\d+::(.*?)(?:::(.*?))?\}\}` at the
head.  Returns (FRONT, BACK, remainder); an absent BACK group is the empty
string, as in Go's `FindStringSubmatch`. -/
def matchClozeAt (l : List Char) : Option (List Char × List Char × List Char) :=
  match l with
  | '{' :: '{' :: c :: r0 =>
    if lcase c = 'c' then
      match r0.takeWhile Char.isDigit, r0.dropWhile Char.isDigit with
      | [], _ => none
      | _ :: _, ':' :: ':' :: r1 => clozeGo [] r1
      | _ :: _, _ => none
    else none
  | _ => none

/-! ### Replacement builders and the pipeline steps of `transform` -/

/-- Go's `strings.HasSuffix`. -/
def hasSfx (pat l : List Char) : Bool := hasPfx pat.reverse l.reverse

/-- Composed replacer for step 1: drop every `reStyleBlock` match. -/
def mStyle (l : List Char) : Option (List Char × List Char) :=
  (matchStyleAt l).map fun rest => (([] : List Char), rest)

/-- Step 1 (line 256): `reStyleBlock.ReplaceAllString(h, "")`. -/
def stripStyleBlocks (l : List Char) : List Char := replAll mStyle l

/-- Composed replacer for the translation-line removal: drop every
`reTransDiv` match. -/
def mTrans (l : List Char) : Option (List Char × List Char) :=
  (matchTransDivAt l).map fun p => (([] : List Char), p.2)

/-- Line 263: `reTransDiv.ReplaceAllString(h, "")` — removes every matching
translation line. -/
def transDivRemoveAll (l : List Char) : List Char := replAll mTrans l

/-- Replacement text of one cloze marker (the function literal at lines
274-292): the tag-stripped, trimmed FRONT; deleted if empty, otherwise
wrapped in one colour-styled span with the plain text re-escaped. -/
def clozeReplacement (color front : List Char) : List Char :=
  let plain := trimSpace (stripTags front)
  if plain = [] then []
  else
    "<span style=\"color:".toList ++ color ++ ";\">".toList ++
      escapeString plain ++ "</span>".toList

/-- Translation-accumulator update of the cloze closure (lines 281-284):
when `ja` is still empty and `strings.TrimSpace(back)` is nonempty, `ja`
becomes the tag-stripped trimmed BACK. -/
def clozeJaStep (ja back : List Char) : List Char :=
  if ja = [] ∧ trimSpace back ≠ [] then trimSpace (stripTags back) else ja

/-- Step 3 (lines 274-292): `reCloze.ReplaceAllStringFunc` with the stateful
closure — the translation accumulator `ja` is updated by `clozeJaStep`; the
emitted replacement is `clozeReplacement` and does not depend on `ja`.
Fuelled like `replA`; the canonical fuel is the input length. -/
def clozeFold (color : List Char) : Nat → List Char → List Char → List Char × List Char
  | 0, ja, l => (l, ja)
  | _ + 1, ja, [] => ([], ja)
  | f + 1, ja, c :: tl =>
    match matchClozeAt (c :: tl) with
    | some (front, back, rest) =>
      let p := clozeFold color f (clozeJaStep ja back) rest
      (clozeReplacement color front ++ p.1, p.2)
    | none =>
      let p := clozeFold color f ja tl
      (c :: p.1, p.2)

/-- Cloze pass with its canonical fuel. -/
def clozeAll (color ja l : List Char) : List Char × List Char :=
  clozeFold color l.length ja l

/-- Composed replacer for `reUnwrapDown`: replace the match by its captured
inner content (`$1`). -/
def mDown (l : List Char) : Option (List Char × List Char) :=
  (matchSpanTokAt "dc-down".toList l).map fun p => (p.1, p.2)

/-- Composed replacer for `reUnwrapGap`. -/
def mGap (l : List Char) : Option (List Char × List Char) :=
  (matchSpanTokAt "dc-gap".toList l).map fun p => (p.1, p.2)

/-- One iteration of the decorative-unwrap loop (lines 296-298): the
`dc-down` replacement pass followed by the `dc-gap` replacement pass. -/
def unwrapOnce (l : List Char) : List Char := replAll mGap (replAll mDown l)

/-- Fuelled form of the step 3.5 loop (lines 295-302): repeat `unwrapOnce`
until a pass produces no change.  Each changing pass strictly shrinks the
list (a span wrapper is replaced by its strictly shorter inner content), so
`length + 1` iterations always reach the fixed point. -/
def unwrapLoop : Nat → List Char → List Char
  | 0, l => l
  | f + 1, l =>
    let l' := unwrapOnce l
    if l' = l then l else unwrapLoop f l'

/-- The decorative-unwrap pass of step 3.5, run to its fixed point. -/
def unwrapFix (l : List Char) : List Char := unwrapLoop (l.length + 1) l

/-- Replacement template of step 4 (line 305):
`<div class="$1" style="padding-bottom:1rem;">`. -/
def cardRepl (cls : List Char) : List Char :=
  "<div class=\"".toList ++ cls ++ "\" style=\"padding-bottom:1rem;\">".toList

/-- Composed replacer for `reCardDiv`. -/
def mCard (l : List Char) : Option (List Char × List Char) :=
  (matchCardAt l).map fun p => (cardRepl p.1, p.2)

/-- Step 4: `reCardDiv.ReplaceAllString`. -/
def cardStep (l : List Char) : List Char := replAll mCard l

/-- Replacement of one `reImage` match (lines 308-335): the fixed layout
declarations followed by the verbatim `background-image` declaration (with a
`;` appended when missing), wrapped in a fresh `<div>` that keeps the class
value verbatim. -/
def imageRepl (q1 q2 : List Char) : List Char :=
  let bg : List Char :=
    match findBgImage q2 with
    | some m0 => if hasSfx ";".toList m0 then m0 else m0 ++ ";".toList
    | none => []
  let newStyle :=
    ("display:inline-block;width:calc(50% - 10px);padding-bottom:29%;" ++
     "background-position:center;background-repeat:no-repeat;" ++
     "background-size:cover;margin-left:2px;margin-right:2px;").toList ++ bg
  "<div class=\"".toList ++ q1 ++ "\" style=\"".toList ++ newStyle ++ "\"></div>".toList

/-- Composed replacer for `reImage`. -/
def mImage (l : List Char) : Option (List Char × List Char) :=
  (matchImageAt l).map fun p => (imageRepl p.1 p.2.1, p.2.2)

/-- Step 5: `reImage.ReplaceAllStringFunc`. -/
def imageStep (l : List Char) : List Char := replAll mImage l

/-- The literal `<div class="dc-line"` searched for (case-sensitively) by
step 6. -/
def dcLineOpen : List Char := "<div class=\"dc-line\"".toList

/-- The audio container opening of step 6 (line 348). -/
def audioOpen : List Char :=
  "<div class=\"dc-audio\" style=\"padding:0.4rem;margin-top:0.25rem;\">".toList

/-- Prefix normalisation of the trimmed sound (lines 340-344): keep a string
already starting with `[sound:`; otherwise cut everything before the first
occurrence of `[sound:`, or keep the string as-is when it does not occur. -/
def soundNormalize (s : List Char) : List Char :=
  if hasPfx "[sound:".toList s then s
  else
    match indexOfLit "[sound:".toList s with
    | some i => s.drop i
    | none => s

/-- Step 6 (lines 338-352): trim the sound of surrounding quotes and
spaces; when nonempty, normalise its `[sound:` prefix and splice an audio
container immediately after the first `</div>` occurrence that follows the
first occurrence of `<div class="dc-line"`; otherwise leave the markup
unchanged. -/
def soundStep (h : List Char) (sound : List Char) : List Char :=
  let s := trimQuoteSpace sound
  if s = [] then h
  else
    let ss := soundNormalize s
    match indexOfLit dcLineOpen h with
    | none => h
    | some idx =>
      match indexOfLit "</div>".toList (h.drop idx) with
      | none => h
      | some e =>
        let ins := idx + e + 6
        h.take ins ++ audioOpen ++ ss ++ "</div>".toList ++ h.drop ins

/-- Composed replacer for the final `strings.ReplaceAll(h, "  ", " ")`. -/
def mSp (l : List Char) : Option (List Char × List Char) :=
  match l with
  | ' ' :: ' ' :: r => some ([' '], r)
  | _ => none

/-- Step 7 (line 355): collapse each pair of two consecutive spaces into one
in a single left-to-right pass. -/
def collapse2 (l : List Char) : List Char := replAll mSp l

/-- The whole pipeline of `transform` up to (and excluding) the sound step,
returning the markup so far together with the extracted translation. -/
def preSound (h color : String) : List Char × List Char :=
  let h1 := stripStyleBlocks h.toList
  let hj : List Char × List Char :=
    match findFirst matchTransDivAt h1 with
    | some p => (transDivRemoveAll h1, trimSpace (stripTags p.1))
    | none => (h1, [])
  let ja1 : List Char :=
    if hj.2 = [] then
      match findFirst matchAnyTransAt hj.1 with
      | some p => trimSpace (stripTags p.1)
      | none => []
    else hj.2
  let r := clozeAll color.toList ja1 hj.1
  (imageStep (cardStep (unwrapFix r.1)), r.2)

/-- The embedding of `transform` (lines 254-357 of `src/main.go`). -/
def transform (h sound color : String) : String × String :=
  let p := preSound h color
  ((collapse2 (soundStep p.1 sound.toList)).asString, p.2.asString)

/-! ### Length facts about the primitives -/

theorem dropWhile_len_le (p : Char → Bool) (l : List Char) :
    (l.dropWhile p).length ≤ l.length := by
  induction l with
  | nil => simp [List.dropWhile]
  | cons c tl ih =>
    simp only [List.dropWhile]
    split
    · exact Nat.le_trans ih (by simp)
    · simp

theorem dropPfxCI_len {p l r : List Char} (h : dropPfxCI p l = some r) :
    r.length + p.length = l.length := by
  induction p generalizing l with
  | nil =>
    simp only [dropPfxCI, Option.some.injEq] at h
    subst h; simp
  | cons a ps ih =>
    cases l with
    | nil => simp [dropPfxCI] at h
    | cons c cs =>
      simp only [dropPfxCI] at h
      split at h
      · have := ih h; simp only [List.length_cons]; omega
      · exact absurd h (by simp)

theorem dropPfxCS_len {p l r : List Char} (h : dropPfxCS p l = some r) :
    r.length + p.length = l.length := by
  induction p generalizing l with
  | nil =>
    simp only [dropPfxCS, Option.some.injEq] at h
    subst h; simp
  | cons a ps ih =>
    cases l with
    | nil => simp [dropPfxCS] at h
    | cons c cs =>
      simp only [dropPfxCS] at h
      split at h
      · have := ih h; simp only [List.length_cons]; omega
      · exact absurd h (by simp)

theorem splitUntilChar_len {ch : Char} {l b r : List Char}
    (h : splitUntilChar ch l = some (b, r)) :
    b.length + 1 + r.length = l.length := by
  induction l generalizing b r with
  | nil => simp [splitUntilChar] at h
  | cons c tl ih =>
    simp only [splitUntilChar] at h
    split at h
    · simp only [Option.some.injEq, Prod.mk.injEq] at h
      obtain ⟨rfl, rfl⟩ := h
      simp only [List.length_nil, List.length_cons]; omega
    · cases hs : splitUntilChar ch tl with
      | none => rw [hs] at h; simp at h
      | some p =>
        rw [hs] at h
        simp at h
        obtain ⟨rfl, rfl⟩ := h
        have hs2 : splitUntilChar ch tl = some (p.1, p.2) := by rw [hs]
        have := ih hs2
        simp only [List.length_cons]; omega

theorem splitUntilLitCI_len {pat l b r : List Char}
    (h : splitUntilLitCI pat l = some (b, r)) :
    b.length + pat.length + r.length = l.length := by
  induction l generalizing b r with
  | nil =>
    simp only [splitUntilLitCI] at h
    split at h
    · rename_i r0 hd
      simp only [Option.some.injEq, Prod.mk.injEq] at h
      obtain ⟨rfl, rfl⟩ := h
      have := dropPfxCI_len hd
      simp only [List.length_nil] at this ⊢; omega
    · exact absurd h (by simp)
  | cons c tl ih =>
    simp only [splitUntilLitCI] at h
    split at h
    · rename_i r0 hd
      simp only [Option.some.injEq, Prod.mk.injEq] at h
      obtain ⟨rfl, rfl⟩ := h
      have := dropPfxCI_len hd
      simp only [List.length_nil, List.length_cons] at this ⊢; omega
    · cases hs : splitUntilLitCI pat tl with
      | none => rw [hs] at h; simp at h
      | some p =>
        rw [hs] at h
        simp at h
        obtain ⟨rfl, rfl⟩ := h
        have hs2 : splitUntilLitCI pat tl = some (p.1, p.2) := by rw [hs]
        have := ih hs2
        simp only [List.length_cons]; omega

theorem splitUntilLitCS_len {pat l b r : List Char}
    (h : splitUntilLitCS pat l = some (b, r)) :
    b.length + pat.length + r.length = l.length := by
  induction l generalizing b r with
  | nil =>
    simp only [splitUntilLitCS] at h
    split at h
    · rename_i r0 hd
      simp only [Option.some.injEq, Prod.mk.injEq] at h
      obtain ⟨rfl, rfl⟩ := h
      have := dropPfxCS_len hd
      simp only [List.length_nil] at this ⊢; omega
    · exact absurd h (by simp)
  | cons c tl ih =>
    simp only [splitUntilLitCS] at h
    split at h
    · rename_i r0 hd
      simp only [Option.some.injEq, Prod.mk.injEq] at h
      obtain ⟨rfl, rfl⟩ := h
      have := dropPfxCS_len hd
      simp only [List.length_nil, List.length_cons] at this ⊢; omega
    · cases hs : splitUntilLitCS pat tl with
      | none => rw [hs] at h; simp at h
      | some p =>
        rw [hs] at h
        simp at h
        obtain ⟨rfl, rfl⟩ := h
        have hs2 : splitUntilLitCS pat tl = some (p.1, p.2) := by rw [hs]
        have := ih hs2
        simp only [List.length_cons]; omega

/-! ### Generic lemmas about the fuelled replacement pass -/

section ReplLemmas

variable {m : List Char → Option (List Char × List Char)}

theorem replA_nil (m : List Char → Option (List Char × List Char)) (f : Nat) :
    replA m f [] = [] := by
  cases f <;> rfl

theorem findSplit_none_replA {l : List Char} (hf : findSplit m l = none) :
    ∀ f, replA m f l = l := by
  induction l with
  | nil => intro f; cases f <;> rfl
  | cons c tl ih =>
    intro f
    cases f with
    | zero => rfl
    | succ f' =>
      simp only [findSplit] at hf
      cases hm2 : m (c :: tl) with
      | some a => rw [hm2] at hf; simp at hf
      | none =>
        rw [hm2] at hf
        have htl : findSplit m tl = none := by
          cases hs : findSplit m tl with
          | none => rfl
          | some p => rw [hs] at hf; simp at hf
        simp only [replA, hm2]
        rw [ih htl f']

theorem replA_fuel (hm : ∀ l r rest, m l = some (r, rest) → rest.length < l.length) :
    ∀ f l, l.length ≤ f → replA m f l = replA m l.length l := by
  intro f
  induction f using Nat.strong_induction_on with
  | _ f ih =>
    intro l hl
    cases f with
    | zero =>
      have : l = [] := List.length_eq_zero.mp (Nat.le_zero.mp hl)
      subst this; rfl
    | succ f' =>
      cases l with
      | nil => simp [replA]
      | cons c tl =>
        have hlen : tl.length + 1 ≤ f' + 1 := by simpa using hl
        cases hm2 : m (c :: tl) with
        | some p =>
          obtain ⟨r, rest⟩ := p
          have hrest : rest.length < tl.length + 1 := by
            have := hm _ _ _ hm2; simpa using this
          simp only [replA, List.length_cons, hm2]
          congr 1
          rw [ih f' (Nat.lt_succ_self f') rest (by omega),
              ih tl.length (by omega) rest (by omega)]
        | none =>
          simp only [replA, List.length_cons, hm2]
          congr 1
          exact ih f' (Nat.lt_succ_self f') tl (by omega)

theorem findSplit_some_replAll
    (hm : ∀ l r rest, m l = some (r, rest) → rest.length < l.length)
    {l pre r rest : List Char}
    (hf : findSplit m l = some (pre, (r, rest))) :
    replAll m l = pre ++ r ++ replAll m rest := by
  induction l generalizing pre with
  | nil => simp [findSplit] at hf
  | cons c tl ih =>
    simp only [findSplit] at hf
    cases hm2 : m (c :: tl) with
    | some a =>
      rw [hm2] at hf
      simp only [Option.some.injEq, Prod.mk.injEq] at hf
      obtain ⟨rfl, rfl⟩ := hf
      have hrest : rest.length < tl.length + 1 := by
        have := hm _ _ _ hm2; simpa using this
      unfold replAll
      simp only [List.length_cons, replA, hm2]
      rw [replA_fuel hm tl.length rest (by omega)]
      simp
    | none =>
      rw [hm2] at hf
      cases hs : findSplit m tl with
      | none => rw [hs] at hf; simp at hf
      | some p =>
        rw [hs] at hf
        simp only [Option.map_some', Option.some.injEq] at hf
        obtain ⟨p1, p2⟩ := p
        simp only [Prod.mk.injEq] at hf
        obtain ⟨rfl, hp2⟩ := hf
        subst hp2
        have hs2 : findSplit m tl = some (p1, (r, rest)) := by rw [hs]
        have := ih hs2
        unfold replAll at this ⊢
        simp only [List.length_cons, replA, hm2]
        rw [this]
        simp

theorem replA_len_le
    (hle : ∀ l r rest, m l = some (r, rest) → r.length + rest.length ≤ l.length) :
    ∀ f l, (replA m f l).length ≤ l.length := by
  intro f
  induction f with
  | zero => intro l; simp [replA]
  | succ f' ih =>
    intro l
    cases l with
    | nil => simp [replA]
    | cons c tl =>
      simp only [replA]
      cases hm2 : m (c :: tl) with
      | some p =>
        obtain ⟨r, rest⟩ := p
        have h1 := hle _ _ _ hm2
        have h2 := ih rest
        simp only [List.length_append, List.length_cons] at h1 ⊢
        omega
      | none =>
        have := ih tl
        simp only [List.length_cons]
        omega

theorem replA_eq_or_lt
    (hst : ∀ l r rest, m l = some (r, rest) → r.length + rest.length < l.length) :
    ∀ f l, replA m f l = l ∨ (replA m f l).length < l.length := by
  intro f
  induction f with
  | zero => intro l; left; rfl
  | succ f' ih =>
    intro l
    cases l with
    | nil => left; simp [replA]
    | cons c tl =>
      simp only [replA]
      cases hm2 : m (c :: tl) with
      | some p =>
        obtain ⟨r, rest⟩ := p
        right
        have h1 := hst _ _ _ hm2
        have h2 := replA_len_le (fun l r rest h => Nat.le_of_lt (hst l r rest h)) f' rest
        simp only [List.length_append, List.length_cons] at h1 ⊢
        omega
      | none =>
        cases ih tl with
        | inl he => left; rw [he]
        | inr hlt =>
          right
          simp only [List.length_cons]
          omega

end ReplLemmas

theorem findSplit_map {α β : Type} (m : List Char → Option α) (g : α → β)
    (l : List Char) :
    findSplit (fun l => (m l).map g) l = (findSplit m l).map fun p => (p.1, g p.2) := by
  induction l with
  | nil => rfl
  | cons c tl ih =>
    simp only [findSplit]
    cases hm2 : m (c :: tl) with
    | some a => simp [hm2]
    | none =>
      simp only [hm2, Option.map_none', ih]
      cases hs : findSplit m tl <;> simp

/-! ### Per-matcher length facts: every matcher consumes at least one
character, and the unwrap matchers consume strictly more than they
capture. -/

theorem matchStyleAt_len {l rest : List Char} (h : matchStyleAt l = some rest) :
    rest.length < l.length := by
  simp only [matchStyleAt, Option.pure_def, Option.bind_eq_bind, Option.bind_eq_some,
    Option.some.injEq] at h
  obtain ⟨a, ha, ⟨b1, b2⟩, hb, h⟩ := h
  obtain ⟨⟨c1, c2⟩, hc, h2⟩ := h
  subst h2
  have l1 := dropPfxCI_len ha
  have l2 := splitUntilChar_len hb
  have l3 := splitUntilLitCI_len hc
  have e1 : ("<style".toList).length = 6 := rfl
  have e2 : ("</style>".toList).length = 8 := rfl
  dsimp only at l2 l3 ⊢
  omega

theorem mSp_len {l r rest : List Char} (h : mSp l = some (r, rest)) :
    r.length + rest.length < l.length := by
  unfold mSp at h
  split at h
  · rename_i r0 heq
    simp only [Option.some.injEq, Prod.mk.injEq] at h
    obtain ⟨rfl, rfl⟩ := h
    simp only [List.length_cons, List.length_nil]
    omega
  · exact absurd h (by simp)

theorem matchTransDivAt_len {l inner rest : List Char}
    (h : matchTransDivAt l = some (inner, rest)) :
    inner.length + rest.length < l.length := by
  simp only [matchTransDivAt, Option.pure_def, Option.bind_eq_bind, Option.bind_eq_some] at h
  obtain ⟨a, ha, h⟩ := h
  have la := dropPfxCI_len ha
  have hws1 := dropWhile_len_le isReSpace a
  split at h
  · split at h
    · simp only [Option.bind_eq_some] at h
      obtain ⟨c1, hc1, h⟩ := h
      obtain ⟨c2, hc2, h⟩ := h
      have lc1 := dropPfxCI_len hc1
      have lc2 := dropPfxCI_len hc2
      have hws2 := dropWhile_len_le isReSpace c2
      split at h
      · split at h
        · simp only [Option.bind_eq_some] at h
          obtain ⟨f1, hf1, h⟩ := h
          obtain ⟨⟨g1, g2⟩, hg, h⟩ := h
          have lf1 := dropPfxCI_len hf1
          have lg := splitUntilChar_len hg
          split at h
          · rename_i g2x heq
            simp only [Option.bind_eq_some, Option.some.injEq] at h
            obtain ⟨⟨i1, r1⟩, hi, h2⟩ := h
            have li := splitUntilLitCI_len hi
            have h2' : i1 = inner ∧ r1 = rest :=
              ⟨congrArg Prod.fst h2, congrArg Prod.snd h2⟩
            obtain ⟨rfl, rfl⟩ := h2'
            have hws3 := dropWhile_len_le isReSpace g2
            rw [heq] at hws3
            have e1 : ("<div".toList).length = 4 := rfl
            have e2 : ("class=\"".toList).length = 7 := rfl
            have e3 : ("dc-line".toList).length = 7 := rfl
            have e4 : ("dc-translation".toList).length = 14 := rfl
            have e5 : ("</div>".toList).length = 6 := rfl
            simp only [List.length_cons] at hws3
            omega
          · exact absurd h (by simp)
        · exact absurd h (by simp)
      · exact absurd h (by simp)
    · exact absurd h (by simp)
  · exact absurd h (by simp)

theorem matchCardAt_len {l cls rest : List Char}
    (h : matchCardAt l = some (cls, rest)) :
    rest.length + 12 ≤ l.length := by
  simp only [matchCardAt, Option.pure_def, Option.bind_eq_bind, Option.bind_eq_some] at h
  obtain ⟨a, ha, h⟩ := h
  have la := dropPfxCI_len ha
  have hws1 := dropWhile_len_le isReSpace a
  split at h
  · split at h
    · simp only [Option.bind_eq_some] at h
      obtain ⟨c1, hc1, h⟩ := h
      obtain ⟨⟨q, afterQ⟩, hq, h⟩ := h
      have lc1 := dropPfxCI_len hc1
      have lq := splitUntilChar_len hq
      split at h
      · simp only [Option.bind_eq_some, Option.some.injEq] at h
        obtain ⟨⟨b1, b2⟩, hb, h2⟩ := h
        have lb := splitUntilChar_len hb
        have h2' : q = cls ∧ b2 = rest :=
          ⟨congrArg Prod.fst h2, congrArg Prod.snd h2⟩
        obtain ⟨rfl, rfl⟩ := h2'
        have e1 : ("<div".toList).length = 4 := rfl
        have e2 : ("class=\"".toList).length = 7 := rfl
        omega
      · exact absurd h (by simp)
    · exact absurd h (by simp)
  · exact absurd h (by simp)

theorem matchImageAt_len {l q1 q2 rest : List Char}
    (h : matchImageAt l = some (q1, q2, rest)) :
    rest.length < l.length := by
  simp only [matchImageAt, Option.pure_def, Option.bind_eq_bind, Option.bind_eq_some] at h
  obtain ⟨a, ha, h⟩ := h
  have la := dropPfxCI_len ha
  have hws1 := dropWhile_len_le isReSpace a
  split at h
  · split at h
    · simp only [Option.bind_eq_some] at h
      obtain ⟨c1, hc1, h⟩ := h
      obtain ⟨⟨w1, afterQ1⟩, hq1, h⟩ := h
      have lc1 := dropPfxCI_len hc1
      have lq1 := splitUntilChar_len hq1
      split at h
      · have hws2 := dropWhile_len_le isReSpace afterQ1
        split at h
        · split at h
          · simp only [Option.bind_eq_some] at h
            obtain ⟨f1, hf1, h⟩ := h
            obtain ⟨⟨w2, afterQ2⟩, hq2, h⟩ := h
            have lf1 := dropPfxCI_len hf1
            have lq2 := splitUntilChar_len hq2
            have hws3 := dropWhile_len_le isReSpace afterQ2
            split at h
            · rename_i g heq
              simp only [Option.bind_eq_some, Option.some.injEq] at h
              obtain ⟨r1, hr1, h2⟩ := h
              have lr1 := dropPfxCI_len hr1
              have hrr : r1 = rest := by
                have := congrArg (fun p => p.2.2) h2
                simpa using this
              subst hrr
              rw [heq] at hws3
              simp only [List.length_cons] at hws3
              have e1 : ("<div".toList).length = 4 := rfl
              have e2 : ("class=\"".toList).length = 7 := rfl
              have e3 : ("style=\"".toList).length = 7 := rfl
              have e4 : ("</div>".toList).length = 6 := rfl
              omega
            · exact absurd h (by simp)
          · exact absurd h (by simp)
        · exact absurd h (by simp)
      · exact absurd h (by simp)
    · exact absurd h (by simp)
  · exact absurd h (by simp)

theorem clozeGo_len : ∀ {acc l front back rest : List Char},
    clozeGo acc l = some (front, back, rest) → rest.length < l.length := by
  intro acc l
  induction l generalizing acc with
  | nil => intro front back rest h; simp [clozeGo] at h
  | cons c tl ih =>
    intro front back rest h
    simp only [clozeGo] at h
    split at h
    · split at h
      · rename_i b0 r0 hsp
        simp only [Option.some.injEq, Prod.mk.injEq] at h
        obtain ⟨-, -, rfl⟩ := h
        have hl := splitUntilLitCS_len hsp
        have e : ("\x7d\x7d".toList).length = 2 := rfl
        simp only [List.length_cons] at hl ⊢
        omega
      · have := ih h
        simp only [List.length_cons] at this ⊢
        omega
    · simp only [Option.some.injEq, Prod.mk.injEq] at h
      obtain ⟨-, -, rfl⟩ := h
      simp only [List.length_cons]
      omega
    · have := ih h
      simp only [List.length_cons] at this ⊢
      omega

theorem matchClozeAt_len {l front back rest : List Char}
    (h : matchClozeAt l = some (front, back, rest)) :
    rest.length < l.length := by
  unfold matchClozeAt at h
  split at h
  · rename_i c r0
    split at h
    · split at h
      · exact absurd h (by simp)
      · rename_i r1 htk hdw
        have hgo := clozeGo_len h
        have hdwle := dropWhile_len_le Char.isDigit r0
        rw [hdw] at hdwle
        simp only [List.length_cons] at hdwle ⊢
        omega
      · exact absurd h (by simp)
    · exact absurd h (by simp)
  · exact absurd h (by simp)

theorem classCands_len {l : List Char} :
    ∀ {i : Nat} (p : Nat × List Char), p ∈ classCands i l → p.2.length + 7 ≤ l.length := by
  induction l with
  | nil => intro i p hp; simp [classCands] at hp
  | cons c tl ih =>
    intro i p hp
    simp only [classCands] at hp
    split at hp
    · simp at hp
    · rcases List.mem_append.mp hp with hl | hr
      · split at hl
        · rename_i r hdr
          simp only [List.mem_singleton] at hl
          subst hl
          have := dropPfxCI_len hdr
          have e : ("class=\"".toList).length = 7 := rfl
          dsimp only
          omega
        · simp at hl
      · have := ih p hr
        simp only [List.length_cons]
        omega

theorem tryClassCands_len {tok inner rest : List Char} {both : Bool}
    {close : List Char → Option (List Char × List Char)}
    {cands : List (Nat × List Char)}
    (hclose : ∀ la i r, close la = some (i, r) → i.length + r.length ≤ la.length)
    (h : tryClassCands tok both close cands = some (inner, rest)) :
    ∃ p ∈ cands, inner.length + rest.length + 2 ≤ p.2.length := by
  induction cands with
  | nil => simp [tryClassCands] at h
  | cons hd more ih =>
    obtain ⟨n, after⟩ := hd
    simp only [tryClassCands] at h
    split at h
    · obtain ⟨p, hp, hlen⟩ := ih h
      exact ⟨p, List.mem_cons_of_mem _ hp, hlen⟩
    · rename_i q afterQ hq
      split at h
      · split at h
        · obtain ⟨p, hp, hlen⟩ := ih h
          exact ⟨p, List.mem_cons_of_mem _ hp, hlen⟩
        · rename_i b afterGt hb
          split at h
          · rename_i i0 r0 hcl
            simp only [Option.some.injEq, Prod.mk.injEq] at h
            obtain ⟨rfl, rfl⟩ := h
            have l1 := splitUntilChar_len hq
            have l2 := splitUntilChar_len hb
            have l3 := hclose _ _ _ hcl
            refine ⟨(n, after), List.mem_cons_self _ _, ?_⟩
            dsimp only
            omega
          · obtain ⟨p, hp, hlen⟩ := ih h
            exact ⟨p, List.mem_cons_of_mem _ hp, hlen⟩
      · obtain ⟨p, hp, hlen⟩ := ih h
        exact ⟨p, List.mem_cons_of_mem _ hp, hlen⟩

theorem matchSpanTokAt_len {tok l inner rest : List Char}
    (h : matchSpanTokAt tok l = some (inner, rest)) :
    inner.length + rest.length + 14 ≤ l.length := by
  unfold matchSpanTokAt at h
  split at h
  · rename_i l1 hd
    have l5 := dropPfxCI_len hd
    have hcl : ∀ (la i r : List Char), splitUntilLitCI "</span>".toList la = some (i, r) →
        i.length + r.length ≤ la.length := by
      intro la i r hh
      have := splitUntilLitCI_len hh
      have e : ("</span>".toList).length = 7 := rfl
      omega
    obtain ⟨p, hp, hlen⟩ := tryClassCands_len hcl h
    have hmem : p ∈ classCands 0 l1 := List.mem_reverse.mp hp
    have := classCands_len p hmem
    have e1 : ("<span".toList).length = 5 := rfl
    omega
  · exact absurd h (by simp)

/-! ### Decrease facts for the composed replacers -/

theorem mStyle_dec : ∀ (l r rest : List Char), mStyle l = some (r, rest) →
    rest.length < l.length := by
  intro l r rest h
  unfold mStyle at h
  cases hm : matchStyleAt l with
  | none => rw [hm] at h; simp at h
  | some a =>
    rw [hm] at h
    simp only [Option.map_some', Option.some.injEq, Prod.mk.injEq] at h
    obtain ⟨_, rfl⟩ := h
    exact matchStyleAt_len hm

theorem mTrans_dec : ∀ (l r rest : List Char), mTrans l = some (r, rest) →
    rest.length < l.length := by
  intro l r rest h
  unfold mTrans at h
  cases hm : matchTransDivAt l with
  | none => rw [hm] at h; simp at h
  | some a =>
    rw [hm] at h
    simp only [Option.map_some', Option.some.injEq, Prod.mk.injEq] at h
    obtain ⟨_, rfl⟩ := h
    have hm2 : matchTransDivAt l = some (a.1, a.2) := by simpa using hm
    have := matchTransDivAt_len hm2
    omega

theorem mCard_dec : ∀ (l r rest : List Char), mCard l = some (r, rest) →
    rest.length < l.length := by
  intro l r rest h
  unfold mCard at h
  cases hm : matchCardAt l with
  | none => rw [hm] at h; simp at h
  | some a =>
    rw [hm] at h
    simp only [Option.map_some', Option.some.injEq, Prod.mk.injEq] at h
    obtain ⟨_, rfl⟩ := h
    have hm2 : matchCardAt l = some (a.1, a.2) := by simpa using hm
    have := matchCardAt_len hm2
    omega

theorem mImage_dec : ∀ (l r rest : List Char), mImage l = some (r, rest) →
    rest.length < l.length := by
  intro l r rest h
  unfold mImage at h
  cases hm : matchImageAt l with
  | none => rw [hm] at h; simp at h
  | some a =>
    rw [hm] at h
    simp only [Option.map_some', Option.some.injEq, Prod.mk.injEq] at h
    obtain ⟨_, rfl⟩ := h
    have hm2 : matchImageAt l = some (a.1, a.2.1, a.2.2) := by simpa using hm
    have := matchImageAt_len hm2
    omega

theorem mDown_strict : ∀ (l r rest : List Char), mDown l = some (r, rest) →
    r.length + rest.length < l.length := by
  intro l r rest h
  unfold mDown at h
  cases hm : matchSpanTokAt "dc-down".toList l with
  | none => rw [hm] at h; simp at h
  | some a =>
    rw [hm] at h
    simp only [Option.map_some', Option.some.injEq, Prod.mk.injEq] at h
    obtain ⟨rfl, rfl⟩ := h
    have hm2 : matchSpanTokAt "dc-down".toList l = some (a.1, a.2) := by simpa using hm
    have := matchSpanTokAt_len hm2
    omega

theorem mGap_strict : ∀ (l r rest : List Char), mGap l = some (r, rest) →
    r.length + rest.length < l.length := by
  intro l r rest h
  unfold mGap at h
  cases hm : matchSpanTokAt "dc-gap".toList l with
  | none => rw [hm] at h; simp at h
  | some a =>
    rw [hm] at h
    simp only [Option.map_some', Option.some.injEq, Prod.mk.injEq] at h
    obtain ⟨rfl, rfl⟩ := h
    have hm2 : matchSpanTokAt "dc-gap".toList l = some (a.1, a.2) := by simpa using hm
    have := matchSpanTokAt_len hm2
    omega

theorem mDown_dec : ∀ (l r rest : List Char), mDown l = some (r, rest) →
    rest.length < l.length := by
  intro l r rest h
  have := mDown_strict l r rest h
  omega

theorem mGap_dec : ∀ (l r rest : List Char), mGap l = some (r, rest) →
    rest.length < l.length := by
  intro l r rest h
  have := mGap_strict l r rest h
  omega

theorem mSp_dec : ∀ (l r rest : List Char), mSp l = some (r, rest) →
    rest.length < l.length := by
  intro l r rest h
  have := mSp_len h
  omega

/-! ### Facts about the text utilities -/

theorem dropWhile_head_not {p : Char → Bool} {l : List Char} {d : Char} {dtl : List Char}
    (h : l.dropWhile p = d :: dtl) : p d = false := by
  induction l with
  | nil => simp [List.dropWhile] at h
  | cons c tl ih =>
    rw [List.dropWhile_cons] at h
    split at h
    · exact ih h
    · rename_i hc
      injection h with h1 h2
      subst h1
      simpa using hc

theorem trimBy_eq_nil {p : Char → Bool} {l : List Char} (h : trimBy p l = []) :
    ∀ c ∈ l, p c = true := by
  unfold trimBy at h
  have h1 : (l.dropWhile p).reverse.dropWhile p = [] := by
    have := congrArg List.reverse h
    simpa using this
  cases hdw : l.dropWhile p with
  | nil => exact List.dropWhile_eq_nil_iff.mp hdw
  | cons d dtl =>
    exfalso
    have hdp : p d = true := by
      have h2 := List.dropWhile_eq_nil_iff.mp h1
      exact h2 d (by rw [hdw]; simp)
    have hdf : p d = false := dropWhile_head_not hdw
    rw [hdp] at hdf
    exact Bool.noConfusion hdf

theorem isGoSpace_ne {c : Char} (h : isGoSpace c = true) :
    c ≠ '<' ∧ c ≠ '>' ∧ c ≠ '&' := by
  simp only [isGoSpace, Bool.or_eq_true, decide_eq_true_eq] at h
  rcases h with ((((((h | h) | h) | h) | h) | h) | h) | h <;> subst h <;>
    exact ⟨by decide, by decide, by decide⟩

theorem stripTagsScan_of_allspace {l : List Char}
    (h : ∀ c ∈ l, isGoSpace c = true) : stripTagsScan false l = l := by
  induction l with
  | nil => rfl
  | cons c tl ih =>
    obtain ⟨hne1, hne2, -⟩ := isGoSpace_ne (h c (by simp))
    have htl : ∀ c ∈ tl, isGoSpace c = true := fun d hd => h d (by simp [hd])
    simp only [stripTagsScan, if_neg hne1, if_neg hne2, if_neg (by simp : ¬ false = true)]
    rw [ih htl]

theorem unescA_of_allspace : ∀ (f : Nat) {l : List Char},
    (∀ c ∈ l, isGoSpace c = true) → unescA f l = l := by
  intro f
  induction f with
  | zero => intro l _; rfl
  | succ f ih =>
    intro l h
    cases l with
    | nil => rfl
    | cons c tl =>
      obtain ⟨-, -, hne3⟩ := isGoSpace_ne (h c (by simp))
      have htl : ∀ c ∈ tl, isGoSpace c = true := fun d hd => h d (by simp [hd])
      simp only [unescA, if_neg hne3]
      rw [ih htl]

theorem stripTags_of_trimSpace_nil {l : List Char} (h : trimSpace l = []) :
    stripTags l = [] := by
  have hall : ∀ c ∈ l, isGoSpace c = true := trimBy_eq_nil h
  unfold stripTags unescapeString
  rw [stripTagsScan_of_allspace hall, unescA_of_allspace _ hall]
  exact h

/-! ### Lemmas about the cloze pass -/

theorem clozeFold_fuel (color : List Char) :
    ∀ f ja l, l.length ≤ f → clozeFold color f ja l = clozeFold color l.length ja l := by
  intro f
  induction f using Nat.strong_induction_on with
  | _ f ih =>
    intro ja l hl
    cases f with
    | zero =>
      have : l = [] := List.length_eq_zero.mp (Nat.le_zero.mp hl)
      subst this; rfl
    | succ f' =>
      cases l with
      | nil => simp [clozeFold]
      | cons c tl =>
        have hlen : tl.length + 1 ≤ f' + 1 := by simpa using hl
        cases hm2 : matchClozeAt (c :: tl) with
        | some t =>
          obtain ⟨front, back, rest⟩ := t
          have hrest : rest.length < tl.length + 1 := by
            have := matchClozeAt_len hm2; simpa using this
          simp only [clozeFold, List.length_cons, hm2]
          rw [ih f' (Nat.lt_succ_self f') _ rest (by omega),
              ih tl.length (by omega) _ rest (by omega)]
        | none =>
          simp only [clozeFold, List.length_cons, hm2]
          rw [ih f' (Nat.lt_succ_self f') ja tl (by omega)]

theorem clozeFold_fst_ja (color : List Char) :
    ∀ (f : Nat) (ja ja' l : List Char),
      (clozeFold color f ja l).1 = (clozeFold color f ja' l).1 := by
  intro f
  induction f with
  | zero => intro ja ja' l; rfl
  | succ f' ih =>
    intro ja ja' l
    cases l with
    | nil => rfl
    | cons c tl =>
      cases hm2 : matchClozeAt (c :: tl) with
      | some t =>
        obtain ⟨front, back, rest⟩ := t
        simp only [clozeFold, hm2]
        rw [ih (clozeJaStep ja back) (clozeJaStep ja' back) rest]
      | none =>
        simp only [clozeFold, hm2]
        rw [ih ja ja' tl]

theorem clozeJaStep_of_ne {ja back : List Char} (h : ja ≠ []) :
    clozeJaStep ja back = ja := by
  unfold clozeJaStep
  rw [if_neg]
  intro hc
  exact h hc.1

theorem clozeFold_snd_ne (color : List Char) :
    ∀ (f : Nat) (ja l : List Char), ja ≠ [] → (clozeFold color f ja l).2 = ja := by
  intro f
  induction f with
  | zero => intro ja l _; rfl
  | succ f' ih =>
    intro ja l hne
    cases l with
    | nil => rfl
    | cons c tl =>
      cases hm2 : matchClozeAt (c :: tl) with
      | some t =>
        obtain ⟨front, back, rest⟩ := t
        simp only [clozeFold, hm2]
        rw [clozeJaStep_of_ne hne]
        exact ih ja rest hne
      | none =>
        simp only [clozeFold, hm2]
        exact ih ja tl hne

/-- The cloze BACK translation candidate exactly as the specification
phrases it: the first cloze marker whose BACK half is nonempty after
tag-stripping, entity-decoding and trimming supplies the candidate. -/
def backCand : Nat → List Char → List Char
  | 0, _ => []
  | _ + 1, [] => []
  | f + 1, c :: tl =>
    match matchClozeAt (c :: tl) with
    | some (_, back, rest) =>
      let t := trimSpace (stripTags back)
      if t ≠ [] then t else backCand f rest
    | none => backCand f tl

theorem clozeFold_snd_nil (color : List Char) :
    ∀ (f : Nat) (l : List Char), (clozeFold color f [] l).2 = backCand f l := by
  intro f
  induction f with
  | zero => intro l; rfl
  | succ f' ih =>
    intro l
    cases l with
    | nil => rfl
    | cons c tl =>
      cases hm2 : matchClozeAt (c :: tl) with
      | some t =>
        obtain ⟨front, back, rest⟩ := t
        simp only [clozeFold, backCand, hm2]
        by_cases hb : trimSpace back = []
        · have ht : trimSpace (stripTags back) = [] := by
            rw [stripTags_of_trimSpace_nil hb]; rfl
          have hja : clozeJaStep [] back = [] := by
            unfold clozeJaStep
            rw [if_neg]
            intro hc
            exact hc.2 hb
          rw [hja, if_neg (by simpa using ht), ih rest]
        · by_cases ht : trimSpace (stripTags back) = []
          · have hja : clozeJaStep [] back = [] := by
              unfold clozeJaStep
              rw [if_pos ⟨rfl, hb⟩]
              exact ht
            rw [hja, if_neg (by simpa using ht), ih rest]
          · have hja : clozeJaStep [] back = trimSpace (stripTags back) := by
              unfold clozeJaStep
              rw [if_pos ⟨rfl, hb⟩]
            rw [hja, if_pos (by simpa using ht)]
            exact clozeFold_snd_ne color f' _ rest ht
      | none =>
        simp only [clozeFold, backCand, hm2]
        exact ih tl

/-! ### The decorative-unwrap loop reaches a fixed point -/

theorem unwrapOnce_eq_or_lt (l : List Char) :
    unwrapOnce l = l ∨ (unwrapOnce l).length < l.length := by
  unfold unwrapOnce replAll
  rcases replA_eq_or_lt mDown_strict l.length l with hd | hd
  · rw [hd]
    rcases replA_eq_or_lt mGap_strict l.length l with hg | hg
    · left; exact hg
    · right; exact hg
  · right
    have hle := replA_len_le
      (fun la r rest h => Nat.le_of_lt (mGap_strict la r rest h))
      (replA mDown l.length l).length (replA mDown l.length l)
    omega

theorem unwrapLoop_fix : ∀ (f : Nat) (l : List Char), l.length < f →
    unwrapOnce (unwrapLoop f l) = unwrapLoop f l := by
  intro f
  induction f using Nat.strong_induction_on with
  | _ f ih =>
    intro l hl
    cases f with
    | zero => omega
    | succ f' =>
      simp only [unwrapLoop]
      split
      · rename_i he; exact he
      · rename_i hne
        apply ih f' (Nat.lt_succ_self f')
        rcases unwrapOnce_eq_or_lt l with he | hlt
        · exact absurd he hne
        · omega

theorem unwrapFix_fix (l : List Char) : unwrapOnce (unwrapFix l) = unwrapFix l :=
  unwrapLoop_fix (l.length + 1) l (Nat.lt_succ_self _)

theorem unwrapFix_of_fixpoint {l : List Char} (h : unwrapOnce l = l) :
    unwrapFix l = l := by
  unfold unwrapFix unwrapLoop
  rw [if_pos h]

/-! ### Specification-side definitions: the ordered first-match-wins
translation cascade of spec section 2 (explicit container, then any-location
container, then cloze back half), each candidate counted only when its
stripped text is nonempty. -/

/-- First nonempty entry of an ordered candidate list, or empty: once a
candidate populates the translation, later candidates never overwrite it. -/
def firstNonEmptyL : List (List Char) → List Char
  | [] => []
  | x :: xs => if x = [] then firstNonEmptyL xs else x

/-- Candidate (a): the first explicit `dc-line dc-translation` container's
inner content, tag-stripped, entity-decoded and trimmed. -/
def transDivCand (h : List Char) : Option (List Char) :=
  (findFirst matchTransDivAt h).map fun p => trimSpace (stripTags p.1)

/-- Candidate (b): the first any-location `dc-translation` element's inner
content, tag-stripped, entity-decoded and trimmed; empty when absent. -/
def anyTransCand (h : List Char) : List Char :=
  match findFirst matchAnyTransAt h with
  | some p => trimSpace (stripTags p.1)
  | none => []

/-- The ordered translation cascade on the style-stripped markup: when the
explicit container matches, every such container is removed from the markup
and its text heads the candidate list; the later candidates (any-location
container, first nonempty-after-stripping cloze BACK) are scanned on the
container-free markup.  The first nonempty candidate wins; the result is
empty when no source supplies text. -/
def translationSpecL (h1 : List Char) : List Char :=
  match transDivCand h1 with
  | some t =>
    firstNonEmptyL [t, anyTransCand (transDivRemoveAll h1),
      backCand (transDivRemoveAll h1).length (transDivRemoveAll h1)]
  | none => firstNonEmptyL [anyTransCand h1, backCand h1.length h1]

/-- The specification's translation extraction for a markup fragment. -/
def translationSpec (h : String) : String :=
  (translationSpecL (stripStyleBlocks h.toList)).asString

theorem eq_ite_nil (x : List Char) : x = if x = [] then [] else x := by
  by_cases h : x = []
  · rw [if_pos h, h]
  · rw [if_neg h]

theorem preSound_snd_eq (h c : String) :
    (preSound h c).2 = translationSpecL (stripStyleBlocks h.toList) := by
  unfold preSound translationSpecL transDivCand clozeAll
  cases hf : findFirst matchTransDivAt (stripStyleBlocks h.toList) with
  | some p =>
    simp only [hf, Option.map_some']
    by_cases ht : trimSpace (stripTags p.1) = []
    · rw [if_pos ht]
      simp only [firstNonEmptyL, ht, eq_self_iff_true, if_true]
      cases hfa : findFirst matchAnyTransAt (transDivRemoveAll (stripStyleBlocks h.toList)) with
      | some q =>
        simp only [anyTransCand, hfa]
        by_cases hq : trimSpace (stripTags q.1) = []
        · simp only [hq, eq_self_iff_true, if_true]
          rw [clozeFold_snd_nil]
          exact eq_ite_nil _
        · simp only [if_neg hq]
          exact clozeFold_snd_ne _ _ _ _ hq
      | none =>
        simp only [anyTransCand, hfa, eq_self_iff_true, if_true]
        rw [clozeFold_snd_nil]
        exact eq_ite_nil _
    · rw [if_neg ht]
      simp only [firstNonEmptyL, if_neg ht]
      exact clozeFold_snd_ne _ _ _ _ ht
  | none =>
    simp only [hf, Option.map_none']
    simp only [firstNonEmptyL, eq_self_iff_true, if_true]
    cases hfa : findFirst matchAnyTransAt (stripStyleBlocks h.toList) with
    | some q =>
      simp only [anyTransCand, hfa]
      by_cases hq : trimSpace (stripTags q.1) = []
      · simp only [hq, eq_self_iff_true, if_true]
        rw [clozeFold_snd_nil]
        exact eq_ite_nil _
      · simp only [if_neg hq]
        exact clozeFold_snd_ne _ _ _ _ hq
    | none =>
      simp only [anyTransCand, hfa, eq_self_iff_true, if_true]
      rw [clozeFold_snd_nil]
      exact eq_ite_nil _

/-! ### Claim theorems -/

/-- C1: for every markup fragment, the translation text returned by
`transform` is determined by the ordered first-match-wins cascade
`translationSpec` over the candidate sources (explicit `dc-line
dc-translation` container, then any element whose class contains
`dc-translation`, then the first cloze BACK half that is nonempty after
stripping); once a candidate populates the translation it is never
overwritten by a later candidate, and for every input containing none of
these sources the returned translation text is the empty string. -/
theorem claim_C1_translation_first_match_wins :
    (∀ (h s c : String), (transform h s c).2 = translationSpec h) ∧
    (∀ (h s c : String),
      findFirst matchTransDivAt (stripStyleBlocks h.toList) = none →
      findFirst matchAnyTransAt (stripStyleBlocks h.toList) = none →
      backCand (stripStyleBlocks h.toList).length (stripStyleBlocks h.toList) = [] →
      (transform h s c).2 = "") := by
  constructor
  · intro h s c
    show (preSound h c).2.asString = translationSpec h
    rw [preSound_snd_eq]
    rfl
  · intro h s c h1 h2 h3
    show (preSound h c).2.asString = ""
    rw [preSound_snd_eq]
    unfold translationSpecL transDivCand anyTransCand
    rw [h1, h2, h3]
    rfl

/-- Witness for C1: a markup fragment with no translation container, no
any-location translation element and no cloze marker yields the empty
translation. -/
theorem claim_C1_witness :
    findFirst matchTransDivAt (stripStyleBlocks "hello".toList) = none ∧
    findFirst matchAnyTransAt (stripStyleBlocks "hello".toList) = none ∧
    backCand (stripStyleBlocks "hello".toList).length (stripStyleBlocks "hello".toList) = [] ∧
    (transform "hello" "" "red").2 = "" :=
  ⟨rfl, rfl, rfl, claim_C1_translation_first_match_wins.2 "hello" "" "red" rfl rfl rfl⟩

/-- C4: `transform` is total — for every triple of string inputs it returns
a pair of strings; the decorative-unwrap loop always reaches its fixed
point (running one more unwrap pass on the loop's result changes nothing);
and on empty markup and empty sound it returns a pair of empty strings. -/
theorem claim_C4_transform_total :
    (∀ h s c : String, ∃ out ja : String, transform h s c = (out, ja)) ∧
    (∀ l : List Char, unwrapOnce (unwrapFix l) = unwrapFix l) ∧
    (∀ c : String, transform "" "" c = ("", "")) :=
  ⟨fun _ _ _ => ⟨_, _, rfl⟩, unwrapFix_fix, fun _ => rfl⟩

/-- C6: the decorative-unwrap pass of step 3.5 — run to its fixed point —
is idempotent: for every input, running the pass on its own output yields
no further change. -/
theorem claim_C6_unwrap_idempotent :
    ∀ l : List Char, unwrapFix (unwrapFix l) = unwrapFix l :=
  fun l => unwrapFix_of_fixpoint (unwrapFix_fix l)

/-- Run of `n` space characters. -/
def spacesL : Nat → List Char
  | 0 => []
  | n + 1 => ' ' :: spacesL n

theorem spacesL_len : ∀ n, (spacesL n).length = n
  | 0 => rfl
  | n + 1 => by simp [spacesL, spacesL_len n]

theorem collapse2_spaces : ∀ n, collapse2 (spacesL n) = spacesL ((n + 1) / 2) := by
  intro n
  induction n using Nat.strong_induction_on with
  | _ n ih =>
    match n with
    | 0 => rfl
    | 1 => rfl
    | (m + 2) =>
      show replAll mSp (spacesL (m + 2)) = _
      unfold replAll
      rw [spacesL_len]
      show replA mSp (m + 2) (' ' :: ' ' :: spacesL m) = _
      show [' '] ++ replA mSp (m + 1) (spacesL m) = spacesL ((m + 2 + 1) / 2)
      rw [replA_fuel mSp_dec (m + 1) (spacesL m) (by rw [spacesL_len]; omega)]
      have hih := ih m (by omega)
      show ' ' :: replAll mSp (spacesL m) = _
      rw [show replAll mSp (spacesL m) = collapse2 (spacesL m) from rfl, hih]
      have harith : (m + 2 + 1) / 2 = (m + 1) / 2 + 1 := by omega
      rw [harith]
      rfl

set_option maxHeartbeats 1600000 in
/-- C8: the final whitespace step is a single left-to-right pass collapsing
each pair of two consecutive spaces into one, not iterated to a fixed
point: a run of `n` spaces becomes `(n+1)/2` spaces, so a run of exactly
two spaces becomes one space while a run of three spaces leaves two
consecutive spaces; running the pass again can still change the output; and
in `transform`, `a   b` comes out as `a  b`. -/
theorem claim_C8_two_space_collapse_single_pass :
    (∀ n, collapse2 (spacesL n) = spacesL ((n + 1) / 2)) ∧
    collapse2 (spacesL 2) = spacesL 1 ∧
    collapse2 (spacesL 3) = spacesL 2 ∧
    collapse2 (collapse2 (spacesL 3)) ≠ collapse2 (spacesL 3) ∧
    transform "a   b" "" "r" = ("a  b", "") := by
  refine ⟨collapse2_spaces, rfl, rfl, by decide, rfl⟩

/-! ### Further helpers for the claim theorems -/

theorem toList_asString (s : String) : s.toList.asString = s := rfl

theorem findFirst_none_iff {α : Type} (m : List Char → Option α) (l : List Char) :
    findFirst m l = none ↔ findSplit m l = none := by
  unfold findFirst
  cases findSplit m l <;> simp

theorem escapeChar_no_angle (c : Char) : ∀ d ∈ escapeChar c, d ≠ '<' ∧ d ≠ '>' := by
  intro d hd
  unfold escapeChar at hd
  split at hd
  · simp at hd
    rcases hd with rfl | rfl | rfl | rfl | rfl <;> exact ⟨by decide, by decide⟩
  · split at hd
    · simp at hd
      rcases hd with rfl | rfl | rfl | rfl | rfl <;> exact ⟨by decide, by decide⟩
    · split at hd
      · simp at hd
        rcases hd with rfl | rfl | rfl | rfl <;> exact ⟨by decide, by decide⟩
      · split at hd
        · simp at hd
          rcases hd with rfl | rfl | rfl | rfl <;> exact ⟨by decide, by decide⟩
        · split at hd
          · simp at hd
            rcases hd with rfl | rfl | rfl | rfl | rfl <;> exact ⟨by decide, by decide⟩
          · rename_i h1 h2 h3 h4 h5
            simp at hd
            subst hd
            exact ⟨h3, h4⟩

theorem escapeString_no_angle (l : List Char) :
    ∀ d ∈ escapeString l, d ≠ '<' ∧ d ≠ '>' := by
  intro d hd
  unfold escapeString at hd
  simp only [List.mem_flatten, List.mem_map] at hd
  obtain ⟨sub, ⟨c, hc, rfl⟩, hdm⟩ := hd
  exact escapeChar_no_angle c d hdm

theorem clozeFold_step (color : List Char) :
    ∀ {l : List Char} {f : Nat} {ja pre front back rest : List Char},
      findSplit matchClozeAt l = some (pre, (front, back, rest)) →
      l.length ≤ f →
      (clozeFold color f ja l).1 =
        pre ++ clozeReplacement color front ++
          (clozeFold color rest.length (clozeJaStep ja back) rest).1 := by
  intro l
  induction l with
  | nil => intro f ja pre front back rest hf _; simp [findSplit] at hf
  | cons c tl ih =>
    intro f ja pre front back rest hf hl
    cases f with
    | zero => simp at hl
    | succ f' =>
      simp only [findSplit] at hf
      cases hm2 : matchClozeAt (c :: tl) with
      | some a =>
        rw [hm2] at hf
        simp only [Option.some.injEq, Prod.mk.injEq] at hf
        obtain ⟨rfl, rfl⟩ := hf
        have hrest : rest.length < tl.length + 1 := by
          have := matchClozeAt_len hm2; simpa using this
        simp only [clozeFold, hm2]
        rw [clozeFold_fuel color f' (clozeJaStep ja back) rest (by simp at hl; omega)]
        simp
      | none =>
        rw [hm2] at hf
        cases hs : findSplit matchClozeAt tl with
        | none => rw [hs] at hf; simp at hf
        | some p =>
          rw [hs] at hf
          simp only [Option.map_some', Option.some.injEq] at hf
          obtain ⟨p1, p2⟩ := p
          simp only [Prod.mk.injEq] at hf
          obtain ⟨rfl, hp2⟩ := hf
          subst hp2
          have hlen : tl.length ≤ f' := by simp at hl; omega
          have hs2 : findSplit matchClozeAt tl = some (p1, (front, back, rest)) := by rw [hs]
          have := @ih f' ja p1 front back rest hs2 hlen
          simp only [clozeFold, hm2]
          rw [this]
          simp

theorem clozeFold_id (color : List Char) {l : List Char}
    (hf : findSplit matchClozeAt l = none) :
    ∀ f ja, clozeFold color f ja l = (l, ja) := by
  induction l with
  | nil => intro f ja; cases f <;> rfl
  | cons c tl ih =>
    intro f ja
    cases f with
    | zero => rfl
    | succ f' =>
      simp only [findSplit] at hf
      cases hm2 : matchClozeAt (c :: tl) with
      | some a => rw [hm2] at hf; simp at hf
      | none =>
        rw [hm2] at hf
        have htl : findSplit matchClozeAt tl = none := by
          cases hs : findSplit matchClozeAt tl with
          | none => rfl
          | some p => rw [hs] at hf; simp at hf
        simp only [clozeFold, hm2]
        rw [ih htl f' ja]

/-- Shared helper: when the explicit translation container matches with a
nonempty stripped inner text, that text is the returned translation. -/
theorem transform_snd_of_transdiv {h s c : String} {inner r1 : List Char}
    (hf : findFirst matchTransDivAt (stripStyleBlocks h.toList) = some (inner, r1))
    (ht : trimSpace (stripTags inner) ≠ []) :
    (transform h s c).2 = (trimSpace (stripTags inner)).asString := by
  show (preSound h c).2.asString = _
  unfold preSound clozeAll
  simp only [hf]
  rw [if_neg ht]
  exact congrArg List.asString (clozeFold_snd_ne _ _ _ _ ht)

/-- C2: for every cloze marker `\x7b\x7bcN::FRONT(::BACK)?\x7d\x7d`: when FRONT
tag-stripped, entity-decoded and trimmed is nonempty, the marker is replaced
by exactly one inline span carrying the supplied colour as its inline style,
whose content is that plain text re-escaped and free of tag characters; when
the stripped FRONT is empty the whole marker is replaced by the empty
string; the cloze pass rewrites each match by exactly this replacement; and
the concrete marker `\x7b\x7bc1::World::Monde\x7d\x7d` comes out of
`transform` as one colour-styled span. -/
theorem claim_C2_cloze_rewrite :
    (∀ (color front : List Char), trimSpace (stripTags front) ≠ [] →
      clozeReplacement color front =
        "<span style=\"color:".toList ++ color ++ ";\">".toList ++
          escapeString (trimSpace (stripTags front)) ++ "</span>".toList ∧
        ∀ d ∈ escapeString (trimSpace (stripTags front)), d ≠ '<' ∧ d ≠ '>') ∧
    (∀ (color front : List Char), trimSpace (stripTags front) = [] →
      clozeReplacement color front = []) ∧
    (∀ (color ja l pre front back rest : List Char) (f : Nat),
      findSplit matchClozeAt l = some (pre, (front, back, rest)) →
      l.length ≤ f →
      (clozeFold color f ja l).1 =
        pre ++ clozeReplacement color front ++
          (clozeFold color rest.length (clozeJaStep ja back) rest).1) ∧
    transform "\x7b\x7bc1::World::Monde\x7d\x7d" "" "#ff0000" =
      ("<span style=\"color:#ff0000;\">World</span>", "Monde") := by
  refine ⟨?_, ?_, ?_, rfl⟩
  · intro color front h
    refine ⟨?_, escapeString_no_angle _⟩
    simp only [clozeReplacement, if_neg h]
  · intro color front h
    simp only [clozeReplacement, if_pos h]
  · intro color ja l pre front back rest f hf hl
    exact clozeFold_step color hf hl

/-- Witness for C2: the replacement of a marker with FRONT `World`, the
deletion of a marker whose FRONT strips to nothing, and one step of the
cloze pass on `\x7b\x7bc1::a\x7d\x7d`. -/
theorem claim_C2_witness :
    (clozeReplacement "#ff0000".toList "World".toList =
      "<span style=\"color:".toList ++ "#ff0000".toList ++ ";\">".toList ++
        escapeString (trimSpace (stripTags "World".toList)) ++ "</span>".toList) ∧
    clozeReplacement "#ff0000".toList "<b> </b>".toList = [] ∧
    (clozeFold "r".toList 9 [] "\x7b\x7bc1::a\x7d\x7d".toList).1 =
      [] ++ clozeReplacement "r".toList "a".toList ++
        (clozeFold "r".toList 0 (clozeJaStep [] []) []).1 :=
  ⟨(claim_C2_cloze_rewrite.1 "#ff0000".toList "World".toList (by decide)).1,
   claim_C2_cloze_rewrite.2.1 "#ff0000".toList "<b> </b>".toList (by decide),
   claim_C2_cloze_rewrite.2.2.1 "r".toList [] "\x7b\x7bc1::a\x7d\x7d".toList
     [] "a".toList [] [] 9 (by decide) (by decide)⟩

set_option maxRecDepth 4000 in
set_option maxHeartbeats 1600000 in
/-- Counterexample to C3 as stated: the input holds an explicit `dc-line
dc-translation` container whose inner content `<br>` strips to the empty
string; the returned translation is `T`, taken from the separate
any-location `dc-translation` element, not the container's (empty) stripped
inner text. -/
theorem claim_C3_cex :
    findFirst matchTransDivAt
        ("<div class=\"dc-line dc-translation\"><br></div><p class=\"a dc-translation\">T</p>".toList) =
      some ("<br>".toList, "<p class=\"a dc-translation\">T</p>".toList) ∧
    trimSpace (stripTags "<br>".toList) = [] ∧
    (transform "<div class=\"dc-line dc-translation\"><br></div><p class=\"a dc-translation\">T</p>"
        "" "r").2 = "T" ∧
    ("T" : String) ≠ "" :=
  ⟨rfl, rfl, rfl, by decide⟩

/-- C3 amended: for every input whose style-stripped markup contains an
explicit `dc-line dc-translation` container, provided the container's
tag-stripped, entity-decoded, trimmed inner text is nonempty, that text is
the returned translation, and the rewritten markup is computed from the
markup with every matching container removed before the remaining pipeline
steps (so the container never appears through them). -/
theorem claim_C3_amended_transdiv_extraction :
    ∀ (h s c : String) (inner r1 : List Char),
      findFirst matchTransDivAt (stripStyleBlocks h.toList) = some (inner, r1) →
      trimSpace (stripTags inner) ≠ [] →
      (transform h s c).2 = (trimSpace (stripTags inner)).asString ∧
      (transform h s c).1 =
        (collapse2 (soundStep
          (imageStep (cardStep (unwrapFix
            (clozeAll c.toList (trimSpace (stripTags inner))
              (transDivRemoveAll (stripStyleBlocks h.toList))).1)))
          s.toList)).asString := by
  intro h s c inner r1 hf ht
  refine ⟨transform_snd_of_transdiv hf ht, ?_⟩
  show (collapse2 (soundStep (preSound h c).1 s.toList)).asString = _
  unfold preSound clozeAll
  simp only [hf]
  rw [if_neg ht]

set_option maxRecDepth 4000 in
set_option maxHeartbeats 1600000 in
/-- Witness for C3 (amended): a container with inner text `Hello` followed
by plain text. -/
theorem claim_C3_amended_witness :
    findFirst matchTransDivAt
        (stripStyleBlocks "<div class=\"dc-line dc-translation\">Hello</div>x".toList) =
      some ("Hello".toList, "x".toList) ∧
    trimSpace (stripTags "Hello".toList) ≠ [] ∧
    (transform "<div class=\"dc-line dc-translation\">Hello</div>x" "" "r").2 =
      (trimSpace (stripTags "Hello".toList)).asString :=
  ⟨rfl, by decide,
   (claim_C3_amended_transdiv_extraction
      "<div class=\"dc-line dc-translation\">Hello</div>x" "" "r"
      "Hello".toList "x".toList rfl (by decide)).1⟩

set_option maxRecDepth 4000 in
set_option maxHeartbeats 1600000 in
/-- Counterexample to C5 as stated: the sound field consisting of one tab
character is not trimmed away (`strings.Trim(sound, "\" ")` removes only
double quotes and spaces, not general whitespace), so instead of being
dropped it is spliced into an audio container. -/
theorem claim_C5_cex :
    trimQuoteSpace "\t".toList = "\t".toList ∧
    (transform "<div class=\"dc-line\">x</div>" "\t" "r").1 =
      "<div class=\"dc-line\">x</div><div class=\"dc-audio\" style=\"padding:0.4rem;margin-top:0.25rem;\">\t</div>" ∧
    (transform "<div class=\"dc-line\">x</div>" "\t" "r").1 ≠
      "<div class=\"dc-line\">x</div>" :=
  ⟨rfl, rfl, by decide⟩

/-- C5 amended: the sound field is trimmed of surrounding double-quote and
space characters only; when the trimmed result is nonempty, everything
before the first occurrence of `[sound:` is discarded unless the string
already starts with that prefix (and the string is used as-is when the
prefix does not occur); the processed string, wrapped in the fixed
padding/margin container, is inserted immediately after the first `</div>`
substring that follows the first occurrence of the literal
`<div class="dc-line"`; when that literal does not occur (or no `</div>`
follows it) the markup is unchanged; and in `transform` the sound step runs
on the markup produced by the earlier steps, followed only by the
whitespace collapse. -/
theorem claim_C5_amended_sound_insertion :
    (∀ (h sound : List Char), trimQuoteSpace sound = [] → soundStep h sound = h) ∧
    (∀ (s : List Char), hasPfx "[sound:".toList (trimQuoteSpace s) = true →
      soundNormalize (trimQuoteSpace s) = trimQuoteSpace s) ∧
    (∀ (s : List Char) (i : Nat), hasPfx "[sound:".toList (trimQuoteSpace s) = false →
      indexOfLit "[sound:".toList (trimQuoteSpace s) = some i →
      soundNormalize (trimQuoteSpace s) = (trimQuoteSpace s).drop i) ∧
    (∀ (s : List Char), hasPfx "[sound:".toList (trimQuoteSpace s) = false →
      indexOfLit "[sound:".toList (trimQuoteSpace s) = none →
      soundNormalize (trimQuoteSpace s) = trimQuoteSpace s) ∧
    (∀ (h sound : List Char), trimQuoteSpace sound ≠ [] →
      indexOfLit dcLineOpen h = none → soundStep h sound = h) ∧
    (∀ (h sound : List Char) (i : Nat), trimQuoteSpace sound ≠ [] →
      indexOfLit dcLineOpen h = some i →
      indexOfLit "</div>".toList (h.drop i) = none → soundStep h sound = h) ∧
    (∀ (h sound : List Char) (i e : Nat), trimQuoteSpace sound ≠ [] →
      indexOfLit dcLineOpen h = some i →
      indexOfLit "</div>".toList (h.drop i) = some e →
      soundStep h sound =
        h.take (i + e + 6) ++ audioOpen ++ soundNormalize (trimQuoteSpace sound) ++
          "</div>".toList ++ h.drop (i + e + 6)) ∧
    (∀ (h s c : String), (transform h s c).1 =
      (collapse2 (soundStep (preSound h c).1 s.toList)).asString) := by
  refine ⟨?_, ?_, ?_, ?_, ?_, ?_, ?_, fun h s c => rfl⟩
  · intro h sound he
    unfold soundStep
    rw [if_pos he]
  · intro s hp
    unfold soundNormalize
    rw [if_pos hp]
  · intro s i hp hi
    unfold soundNormalize
    rw [if_neg (by simp only [Bool.not_eq_true]; exact hp), hi]
  · intro s hp hi
    unfold soundNormalize
    rw [if_neg (by simp only [Bool.not_eq_true]; exact hp), hi]
  · intro h sound hne hi
    unfold soundStep
    rw [if_neg hne, hi]
  · intro h sound i hne hi he
    unfold soundStep
    rw [if_neg hne]
    simp only [hi, he]
  · intro h sound i e hne hi he
    unfold soundStep
    rw [if_neg hne]
    simp only [hi, he]

set_option maxRecDepth 4000 in
set_option maxHeartbeats 1600000 in
/-- Witness for C5 (amended): a quoted sound with leading junk before its
`[sound:` marker is spliced after the `dc-line` line's first closing tag. -/
theorem claim_C5_amended_witness :
    trimQuoteSpace "\"x [sound:a.mp3]\"".toList ≠ [] ∧
    indexOfLit dcLineOpen "<div class=\"dc-line\">x</div>y".toList = some 0 ∧
    indexOfLit "</div>".toList ("<div class=\"dc-line\">x</div>y".toList.drop 0) = some 22 ∧
    soundStep "<div class=\"dc-line\">x</div>y".toList "\"x [sound:a.mp3]\"".toList =
      "<div class=\"dc-line\">x</div>y".toList.take 28 ++ audioOpen ++
        soundNormalize (trimQuoteSpace "\"x [sound:a.mp3]\"".toList) ++
        "</div>".toList ++ "<div class=\"dc-line\">x</div>y".toList.drop 28 :=
  ⟨by decide, rfl, rfl,
   claim_C5_amended_sound_insertion.2.2.2.2.2.2.1
     "<div class=\"dc-line\">x</div>y".toList "\"x [sound:a.mp3]\"".toList 0 22
     (by decide) rfl rfl⟩

set_option maxRecDepth 4000 in
set_option maxHeartbeats 1600000 in
/-- Counterexample to C7 as stated: an element whose class attribute
contains the token `dc-card` but whose class attribute is not the first
attribute (`<div id="a" class="dc-card">`) is not rewritten at all. -/
theorem claim_C7_cex :
    (transform "<div id=\"a\" class=\"dc-card\">x</div>" "" "r").1 =
      "<div id=\"a\" class=\"dc-card\">x</div>" ∧
    (transform "<div id=\"a\" class=\"dc-card\">x</div>" "" "r").1 ≠
      "<div class=\"dc-card\" style=\"padding-bottom:1rem;\">x</div>" :=
  ⟨rfl, by decide⟩

set_option maxRecDepth 4000 in
set_option maxHeartbeats 1600000 in
/-- C7 amended: every element whose opening tag has the form `<div`,
whitespace, `class="v"` with `v` containing an occurrence of `dc-card` not
preceded by a word character (the shape matched by `reCardDiv` — the class
attribute must come first and be double quoted) is rewritten so that its
opening tag carries the class value verbatim and exactly the inline style
`padding-bottom:1rem;`, with every other attribute discarded; in particular
`<div class="dc-card foo" data-x="1">` becomes
`<div class="dc-card foo" style="padding-bottom:1rem;">`. -/
theorem claim_C7_amended_card_rewrite :
    (∀ (cls : List Char), cardRepl cls =
      "<div class=\"".toList ++ cls ++ "\" style=\"padding-bottom:1rem;\">".toList) ∧
    (∀ (l pre cls rest : List Char),
      findSplit matchCardAt l = some (pre, (cls, rest)) →
      cardStep l = pre ++ cardRepl cls ++ cardStep rest) ∧
    transform "<div class=\"dc-card foo\" data-x=\"1\">hi</div>" "" "r" =
      ("<div class=\"dc-card foo\" style=\"padding-bottom:1rem;\">hi</div>", "") := by
  refine ⟨fun cls => rfl, ?_, rfl⟩
  intro l pre cls rest hf
  have hmap := findSplit_map matchCardAt (fun p => (cardRepl p.1, p.2)) l
  have hf' : findSplit mCard l = some (pre, (cardRepl cls, rest)) := by
    show findSplit (fun l => (matchCardAt l).map fun p => (cardRepl p.1, p.2)) l = _
    rw [hmap, hf]
    rfl
  exact findSplit_some_replAll mCard_dec hf'

set_option maxRecDepth 4000 in
set_option maxHeartbeats 1600000 in
/-- Witness for C7 (amended): one step of the card pass on the claim's own
scenario element. -/
theorem claim_C7_amended_witness :
    findSplit matchCardAt "<div class=\"dc-card foo\" data-x=\"1\">hi</div>".toList =
      some ([], ("dc-card foo".toList, "hi</div>".toList)) ∧
    cardStep "<div class=\"dc-card foo\" data-x=\"1\">hi</div>".toList =
      [] ++ cardRepl "dc-card foo".toList ++ cardStep "hi</div>".toList :=
  ⟨rfl,
   claim_C7_amended_card_rewrite.2.1
     "<div class=\"dc-card foo\" data-x=\"1\">hi</div>".toList
     [] "dc-card foo".toList "hi</div>".toList rfl⟩

set_option maxRecDepth 4000 in
set_option maxHeartbeats 1600000 in
/-- Counterexample to C9 as stated: with two matching containers both of
whose inner contents strip to the empty string, the output translation is
taken from a cloze BACK half (`T`), not from the first container. -/
theorem claim_C9_cex :
    findFirst matchTransDivAt
        "<div class=\"dc-line dc-translation\"><br></div><div class=\"dc-line dc-translation\"><br></div>\x7b\x7bc1::x::T\x7d\x7d".toList =
      some ("<br>".toList,
        "<div class=\"dc-line dc-translation\"><br></div>\x7b\x7bc1::x::T\x7d\x7d".toList) ∧
    findFirst matchTransDivAt
        "<div class=\"dc-line dc-translation\"><br></div>\x7b\x7bc1::x::T\x7d\x7d".toList =
      some ("<br>".toList, "\x7b\x7bc1::x::T\x7d\x7d".toList) ∧
    (transform
        "<div class=\"dc-line dc-translation\"><br></div><div class=\"dc-line dc-translation\"><br></div>\x7b\x7bc1::x::T\x7d\x7d"
        "" "r").2 = "T" ∧
    ("T" : String) ≠ (trimSpace (stripTags "<br>".toList)).asString :=
  ⟨rfl, rfl, rfl, by decide⟩

/-- C9 amended: when the style-stripped markup contains more than one
container matching the explicit `dc-line dc-translation` pattern, the
translation is taken from the first such container only — provided its
stripped inner text is nonempty (otherwise later non-container sources may
supply the translation) — while every matching container, not just the
first, is removed from the markup, and the rewritten markup is computed
from the container-free markup (the cloze pass's markup output being
independent of the translation accumulator). -/
theorem claim_C9_amended_first_wins_all_removed :
    ∀ (h s c : String) (pre1 inner1 r1 pre2 inner2 r2 : List Char),
      findSplit matchTransDivAt (stripStyleBlocks h.toList) = some (pre1, (inner1, r1)) →
      findSplit matchTransDivAt r1 = some (pre2, (inner2, r2)) →
      (trimSpace (stripTags inner1) ≠ [] →
        (transform h s c).2 = (trimSpace (stripTags inner1)).asString) ∧
      transDivRemoveAll (stripStyleBlocks h.toList) =
        pre1 ++ pre2 ++ transDivRemoveAll r2 ∧
      (transform h s c).1 =
        (collapse2 (soundStep (imageStep (cardStep (unwrapFix
          (clozeAll c.toList []
            (transDivRemoveAll (stripStyleBlocks h.toList))).1))) s.toList)).asString := by
  intro h s c pre1 inner1 r1 pre2 inner2 r2 hf1 hf2
  have hff : findFirst matchTransDivAt (stripStyleBlocks h.toList) = some (inner1, r1) := by
    unfold findFirst
    rw [hf1]
    rfl
  have conv : ∀ (l pre inner r : List Char),
      findSplit matchTransDivAt l = some (pre, (inner, r)) →
      findSplit mTrans l = some (pre, ([], r)) := by
    intro l pre inner r hf
    show findSplit (fun l => (matchTransDivAt l).map fun p => (([] : List Char), p.2)) l = _
    rw [findSplit_map matchTransDivAt _ l, hf]
    rfl
  refine ⟨fun ht => transform_snd_of_transdiv hff ht, ?_, ?_⟩
  · have e1 := findSplit_some_replAll mTrans_dec (conv _ _ _ _ hf1)
    have e2 := findSplit_some_replAll mTrans_dec (conv _ _ _ _ hf2)
    show transDivRemoveAll (stripStyleBlocks h.toList) = _
    unfold transDivRemoveAll
    rw [e1, e2]
    simp
  · show (collapse2 (soundStep (preSound h c).1 s.toList)).asString = _
    unfold preSound clozeAll
    simp only [hff]
    rw [clozeFold_fst_ja c.toList _ _ []]

set_option maxRecDepth 4000 in
set_option maxHeartbeats 1600000 in
/-- Witness for C9 (amended): two adjacent containers `A` and `B`; the
translation is `A` and both containers are removed. -/
theorem claim_C9_witness :
    findSplit matchTransDivAt
        (stripStyleBlocks "<div class=\"dc-line dc-translation\">A</div><div class=\"dc-line dc-translation\">B</div>".toList) =
      some ([], ("A".toList, "<div class=\"dc-line dc-translation\">B</div>".toList)) ∧
    findSplit matchTransDivAt "<div class=\"dc-line dc-translation\">B</div>".toList =
      some ([], ("B".toList, [])) ∧
    trimSpace (stripTags "A".toList) ≠ [] ∧
    (transform "<div class=\"dc-line dc-translation\">A</div><div class=\"dc-line dc-translation\">B</div>"
        "" "r").2 = (trimSpace (stripTags "A".toList)).asString ∧
    transDivRemoveAll
        (stripStyleBlocks "<div class=\"dc-line dc-translation\">A</div><div class=\"dc-line dc-translation\">B</div>".toList) =
      [] ++ [] ++ transDivRemoveAll [] :=
  ⟨rfl, rfl, by decide,
   (claim_C9_amended_first_wins_all_removed
      "<div class=\"dc-line dc-translation\">A</div><div class=\"dc-line dc-translation\">B</div>"
      "" "r" [] "A".toList "<div class=\"dc-line dc-translation\">B</div>".toList
      [] "B".toList [] rfl rfl).1 (by decide),
   (claim_C9_amended_first_wins_all_removed
      "<div class=\"dc-line dc-translation\">A</div><div class=\"dc-line dc-translation\">B</div>"
      "" "r" [] "A".toList "<div class=\"dc-line dc-translation\">B</div>".toList
      [] "B".toList [] rfl rfl).2.1⟩

/-- C10: `transform` is the identity on the markup, with empty translation,
for every input containing none of the recognised shapes — no style block,
no explicit or any-location translation element, no cloze marker, no
`dc-down`/`dc-gap` span, no `dc-card` div, no styled empty `dc-image` div,
and no two consecutive spaces — provided the sound field trims (of double
quotes and spaces) to empty. -/
theorem claim_C10_identity_on_inert_input :
    ∀ (h sound c : String),
      findFirst matchStyleAt h.toList = none →
      findFirst matchTransDivAt h.toList = none →
      findFirst matchAnyTransAt h.toList = none →
      findFirst matchClozeAt h.toList = none →
      findFirst (matchSpanTokAt "dc-down".toList) h.toList = none →
      findFirst (matchSpanTokAt "dc-gap".toList) h.toList = none →
      findFirst matchCardAt h.toList = none →
      findFirst matchImageAt h.toList = none →
      findFirst mSp h.toList = none →
      trimQuoteSpace sound.toList = [] →
      transform h sound c = (h, "") := by
  intro h sound c h1 h2 h3 h4 h5 h6 h7 h8 h9 h10
  have s1 := (findFirst_none_iff _ _).mp h1
  have s4 := (findFirst_none_iff _ _).mp h4
  have s5 := (findFirst_none_iff _ _).mp h5
  have s6 := (findFirst_none_iff _ _).mp h6
  have s7 := (findFirst_none_iff _ _).mp h7
  have s8 := (findFirst_none_iff _ _).mp h8
  have s9 := (findFirst_none_iff _ _).mp h9
  have c1 : findSplit mStyle h.toList = none := by
    show findSplit (fun l => (matchStyleAt l).map fun rest => (([] : List Char), rest))
        h.toList = none
    rw [findSplit_map matchStyleAt _ h.toList, s1]
    rfl
  have cD : findSplit mDown h.toList = none := by
    show findSplit (fun l => (matchSpanTokAt "dc-down".toList l).map fun p => (p.1, p.2))
        h.toList = none
    rw [findSplit_map (matchSpanTokAt "dc-down".toList) _ h.toList, s5]
    rfl
  have cG : findSplit mGap h.toList = none := by
    show findSplit (fun l => (matchSpanTokAt "dc-gap".toList l).map fun p => (p.1, p.2))
        h.toList = none
    rw [findSplit_map (matchSpanTokAt "dc-gap".toList) _ h.toList, s6]
    rfl
  have cC : findSplit mCard h.toList = none := by
    show findSplit (fun l => (matchCardAt l).map fun p => (cardRepl p.1, p.2)) h.toList = none
    rw [findSplit_map matchCardAt _ h.toList, s7]
    rfl
  have cI : findSplit mImage h.toList = none := by
    show findSplit (fun l => (matchImageAt l).map fun p => (imageRepl p.1 p.2.1, p.2.2))
        h.toList = none
    rw [findSplit_map matchImageAt _ h.toList, s8]
    rfl
  have e1 : stripStyleBlocks h.toList = h.toList := findSplit_none_replA c1 _
  have eD : replAll mDown h.toList = h.toList := findSplit_none_replA cD _
  have eG : replAll mGap h.toList = h.toList := findSplit_none_replA cG _
  have eU : unwrapFix h.toList = h.toList := by
    apply unwrapFix_of_fixpoint
    unfold unwrapOnce
    rw [eD, eG]
  have eC : cardStep h.toList = h.toList := findSplit_none_replA cC _
  have eI : imageStep h.toList = h.toList := findSplit_none_replA cI _
  have eSp : collapse2 h.toList = h.toList := findSplit_none_replA s9 _
  have hcl := clozeFold_id c.toList s4 h.toList.length []
  have hpre : preSound h c = (h.toList, []) := by
    unfold preSound clozeAll
    simp only [e1, h2, h3]
    simp only [if_true]
    rw [hcl]
    simp only
    rw [eU, eC, eI]
  show ((collapse2 (soundStep (preSound h c).1 sound.toList)).asString,
      (preSound h c).2.asString) = (h, "")
  rw [hpre]
  simp only [soundStep, h10, eq_self_iff_true, if_true]
  rw [eSp, toList_asString]
  rfl

set_option maxRecDepth 4000 in
set_option maxHeartbeats 1600000 in
/-- Witness for C10: `hello world` with a sound of quotes and spaces is
returned unchanged with an empty translation. -/
theorem claim_C10_witness :
    findFirst matchStyleAt "hello world".toList = none ∧
    findFirst matchClozeAt "hello world".toList = none ∧
    trimQuoteSpace "\" \"".toList = [] ∧
    transform "hello world" "\" \"" "red" = ("hello world", "") :=
  ⟨rfl, rfl, rfl,
   claim_C10_identity_on_inert_input "hello world" "\" \"" "red"
     rfl rfl rfl rfl rfl rfl rfl rfl rfl rfl⟩

end AnkiFmt
